import Mathlib

/-!
# Verification of the AMOD Gomory cutting-plane engine

Shallow embedding, over `ℚ`, of the cut generators and the iteration loop of
the AMOD repository (`src/algorithm/gomory.py`, `src/algorithm/solver.py`,
`src/analysis/solver.py`, `src/analysis/gomory_cut.py`), together with proofs
and refutations of the specification's claims about them.

Floating-point tableau data is modelled by its exact rational value (every
IEEE double is a rational number); Python `Fraction` arithmetic is exact
rational arithmetic, and `Fraction.limit_denominator` is embedded below.
Where the Python source mixes `Fraction` and `float` in one expression the
result is modelled as the exact rational value of that expression.
-/

namespace AMOD

/-- Fractional part of a rational, `q - floor q`.  In the Python source this
is `frac - (frac.numerator // frac.denominator)` for a `Fraction`, and
`z - np.floor(z)` for a float. -/
def fracPart (q : ℚ) : ℚ := q - ⌊q⌋

theorem fracPart_nonneg (q : ℚ) : 0 ≤ fracPart q := by
  have h := Int.floor_le q
  simp only [fracPart]
  linarith

theorem fracPart_lt_one (q : ℚ) : fracPart q < 1 := by
  have h := Int.lt_floor_add_one q
  simp only [fracPart]
  linarith

theorem floor_add_fracPart (q : ℚ) : (⌊q⌋ : ℚ) + fracPart q = q := by
  simp [fracPart]

theorem fracPart_intCast (k : ℤ) : fracPart (k : ℚ) = 0 := by
  simp [fracPart]

/-- The Stern–Brocot loop of Python's `Fraction.limit_denominator`:
state `(p0, q0, p1, q1, n, d)`, stepping while the next convergent's
denominator stays within `maxDen`.  The remainder `d` strictly decreases, so
`d + 1` units of fuel always suffice; the fuel argument only makes the
recursion structural. -/
def limitDenLoop (maxDen : ℤ) :
    ℕ → ℤ × ℤ × ℤ × ℤ × ℤ × ℤ → ℤ × ℤ × ℤ × ℤ × ℤ × ℤ
  | 0, st => st
  | fuel + 1, (p0, q0, p1, q1, n, d) =>
      let a := Int.fdiv n d
      let q2 := q0 + a * q1
      if maxDen < q2 then (p0, q0, p1, q1, n, d)
      else limitDenLoop maxDen fuel (p1, q1, p0 + a * p1, q2, d, n - a * d)

/-- The final candidate selection of `Fraction.limit_denominator`: given the
loop's final state, choose between the semiconvergent `bound1` and the
convergent `bound2`, whichever is closer to `q`. -/
def limitDenFinish (q : ℚ) (maxDen : ℤ) (st : ℤ × ℤ × ℤ × ℤ × ℤ × ℤ) : ℚ :=
  let k := Int.fdiv (maxDen - st.2.1) st.2.2.2.1
  let bound1 : ℚ := ((st.1 + k * st.2.2.1 : ℤ) : ℚ) / ((st.2.1 + k * st.2.2.2.1 : ℤ) : ℚ)
  let bound2 : ℚ := ((st.2.2.1 : ℤ) : ℚ) / ((st.2.2.2.1 : ℤ) : ℚ)
  if |bound2 - q| ≤ |bound1 - q| then bound2 else bound1

/-- Python's `Fraction.limit_denominator(maxDen)`: the input itself when its
denominator is already within the bound, otherwise the best rational
approximation with denominator at most `maxDen`. -/
def limitDen (q : ℚ) (maxDen : ℕ) : ℚ :=
  if q.den ≤ maxDen then q
  else limitDenFinish q (maxDen : ℤ)
    (limitDenLoop (maxDen : ℤ) (q.den + 1) (0, 1, 1, 0, q.num, (q.den : ℤ)))

theorem limitDen_of_den_le {q : ℚ} {M : ℕ} (h : q.den ≤ M) : limitDen q M = q := by
  simp [limitDen, h]

/-- Constraint sense of a generated cut (`'G'` = `≥`, `'L'` = `≤`). -/
inductive CSense where
  | G : CSense
  | L : CSense
deriving DecidableEq

/-- A generated cut, as built by the Python cut generators: parallel lists of
variable indices and coefficients, a right-hand side, a sense and a violation
score. -/
structure CutG where
  indices : List ℕ
  coeffs : List ℚ
  rhs : ℚ
  sense : CSense
  violation : ℚ
deriving DecidableEq

/-- The value of a cut's left-hand side at a point `x`. -/
def cutLhs (c : CutG) (x : ℕ → ℚ) : ℚ :=
  ((c.indices.zip c.coeffs).map (fun p => p.2 * x p.1)).sum

/-- A point satisfies a cut when the cut's inequality holds there. -/
def cutSatisfied (c : CutG) (x : ℕ → ℚ) : Prop :=
  match c.sense with
  | CSense.G => c.rhs ≤ cutLhs c x
  | CSense.L => cutLhs c x ≤ c.rhs

/-- `Gomory._generate_gomory_fractional_cuts` (src/algorithm/gomory.py,
lines 62–88), for one basic row: the basic variable's value `v` is
reconstructed with `limit_denominator(1000000)` and its fractional part `f_i`
taken; if `ε < f_i` and `ε < 1 - f_i` the row yields the cut
`Σ f_j x_j ≥ f_i` over the nonbasic variables whose reconstructed
coefficient has `|f_j| > ε`; an empty term list yields no cut. -/
def gfcRow (ε v : ℚ) (row : ℕ → ℚ) (nonBasic : List ℕ) : Option CutG :=
  let fi := fracPart (limitDen v 1000000)
  if ε < fi ∧ ε < 1 - fi then
    let terms := nonBasic.filterMap (fun j =>
      let fj := fracPart (limitDen (row j) 1000000)
      if ε < |fj| then some (j, fj) else none)
    if terms = [] then none
    else some ⟨terms.map Prod.fst, terms.map Prod.snd, fi, CSense.G, fi⟩
  else none

/-- One nonbasic column of a tableau row as seen by the GMI generator:
its variable index, its tableau coefficient, and whether its variable name
starts with `'x'` (an original, integrality-constrained variable as opposed
to a continuous slack). -/
structure GEntry where
  idx : ℕ
  a : ℚ
  isInt : Bool
deriving DecidableEq

/-- The per-column coefficient logic of
`Gomory._generate_gomory_mixed_integer_cuts` (src/algorithm/gomory.py,
lines 140–161), including the tolerance-relaxed integer test
`f_j ≤ f_i + ε` and the guarded divisions (`none` = Python `continue`). -/
def gmiCoeffQ (ε fi aF : ℚ) (isInt : Bool) : Option ℚ :=
  if isInt then
    let fj := fracPart aF
    if fj ≤ fi + ε then some fj
    else if ε < 1 - fi then some (fi / (1 - fi) * (1 - fj)) else none
  else
    if 0 ≤ aF then some aF
    else if ε < 1 - fi then some (fi / (1 - fi) * (-aF)) else none

/-- `Gomory._generate_gomory_mixed_integer_cuts` (src/algorithm/gomory.py,
lines 111–175), for one basic row.  The basic value is reconstructed with
`limit_denominator(1000000)` but the floor is taken of the raw value
(`np.floor(basic_var_value_float)`); coefficients are reconstructed with
`limit_denominator(100000)`; columns with `|a_ij| < ε` are skipped, final
coefficients with `|coeff| ≤ ε` are dropped; the cut `Σ coeff_j x_j ≥ f_i`
is emitted when at least one term survives.  Rows whose basic variable is
not an `'x'`-named variable are skipped. -/
def gmiRow (ε : ℚ) (basicIsX : Bool) (v : ℚ) (entries : List GEntry) : Option CutG :=
  if basicIsX then
    let fi := limitDen v 1000000 - (⌊v⌋ : ℚ)
    if ε < fi ∧ ε < 1 - fi then
      let terms := entries.filterMap (fun e =>
        if |e.a| < ε then none
        else match gmiCoeffQ ε fi (limitDen e.a 100000) e.isInt with
          | some cf => if ε < |cf| then some (e.idx, cf) else none
          | none => none)
      if terms = [] then none
      else some ⟨terms.map Prod.fst, terms.map Prod.snd, fi, CSense.G, fi⟩
    else none
  else none

/-- One row of `initialize_fract_gc` (src/analysis/solver.py, lines 24–60):
if the basic value `b` is fractional (`floor b ≠ b`, raw floating-point
test), the row yields coefficients `z_j - floor z_j` computed directly on
the raw values, a term being recorded whenever it is nonzero, with
right-hand side `b - floor b`.  No rational reconstruction is involved
(the `Fraction(...).limit_denominator()` calls in that function only format
the printed log). -/
def initializeFractGcRow (b : ℚ) (row : List ℚ) : Option (List (ℕ × ℚ) × ℚ) :=
  if (⌊b⌋ : ℚ) ≠ b then
    some (((List.range row.length).zip row).filterMap (fun p =>
      let f := p.2 - (⌊p.2⌋ : ℚ)
      if f ≠ 0 then some (p.1, f) else none),
      b - (⌊b⌋ : ℚ))
  else none

/-- The GMI coefficient formula exactly as the specification words it
(§4.4): strict test `f_j ≤ f_i` for integer columns, sign test for
continuous columns. -/
def gmiCoeffSpec (fi a : ℚ) (isInt : Bool) : ℚ :=
  if isInt then
    (if fracPart a ≤ fi then fracPart a else fi / (1 - fi) * (1 - fracPart a))
  else
    (if 0 ≤ a then a else fi / (1 - fi) * (-a))

/-- The GMI coefficient as the code actually computes it once the guarded
divisions are known to succeed: the tolerance-relaxed test `f_j ≤ f_i + ε`
for integer columns. -/
def gmiCoeffCode (ε fi a : ℚ) (isInt : Bool) : ℚ :=
  if isInt then
    (if fracPart a ≤ fi + ε then fracPart a else fi / (1 - fi) * (1 - fracPart a))
  else
    (if 0 ≤ a then a else fi / (1 - fi) * (-a))

/-! ## The UFL model and the simple per-variable cut
(src/analysis/gomory_cut.py) -/

/-- Feasibility for the UFL linear relaxation built by
`gomoryCut._build_lp_matrices` (src/analysis/gomory_cut.py, lines 50–96):
variables are laid out as `z u` for facilities `u < p` followed by
`z (p + u*r + v)` for the assignment of customer `v` to facility `u`;
each customer is assigned exactly once, an assignment needs its facility
open, and all variables lie in `[0, 1]`. -/
def uflFeasible (p r : ℕ) (z : ℕ → ℚ) : Prop :=
  (∀ v < r, ((Finset.range p).sum fun u => z (p + u * r + v)) = 1) ∧
  (∀ u < p, ∀ v < r, z (p + u * r + v) ≤ z u) ∧
  (∀ i < p + p * r, 0 ≤ z i ∧ z i ≤ 1)

/-- A 0/1 (integer) point of the UFL model. -/
def uflIntegral (p r : ℕ) (z : ℕ → ℚ) : Prop :=
  ∀ i < p + p * r, z i = 0 ∨ z i = 1

/-- Python's `round` (round-half-to-even), as used by
`_find_most_fractional_variable`. -/
def pyRound (q : ℚ) : ℤ :=
  if fracPart q < 1 / 2 then ⌊q⌋
  else if 1 / 2 < fracPart q then ⌊q⌋ + 1
  else if ⌊q⌋ % 2 = 0 then ⌊q⌋ else ⌊q⌋ + 1

/-- `abs(value - round(value))`, the fractionality measure of
`gomoryCut._find_most_fractional_variable` (src/analysis/gomory_cut.py,
lines 221–244). -/
def fractMeasure (q : ℚ) : ℚ := |q - (pyRound q : ℚ)|

/-- One step of `_find_most_fractional_variable`'s scan: keep the candidate
with the strictly largest fractionality above the tolerance. -/
def fmfStep (tol : ℚ) (acc : ℚ × Option (ℕ × ℚ)) (p : ℕ × ℚ) : ℚ × Option (ℕ × ℚ) :=
  let f := fractMeasure p.2
  if tol < f ∧ acc.1 < f then (f, some (p.1, p.2)) else acc

/-- `gomoryCut._find_most_fractional_variable`: scan the solution vector,
keeping the first index attaining the strictly largest fractionality above
the tolerance; returns `(index, value, fractional part)`. -/
def findMostFractional (sol : List ℚ) (tol : ℚ) : Option (ℕ × ℚ × ℚ) :=
  let st := sol.enum.foldl (fmfStep tol) (0, none)
  match st.2 with
  | some (i, v) => some (i, v, st.1)
  | none => none

/-- `gomoryCut._generate_simple_gomory_cut` (src/analysis/gomory_cut.py,
lines 246–265): the unit coefficient vector at `varIdx` together with the
bound `floor value`; the emitted constraint is
`coeffs · z ≤ floor value`. -/
def simpleGomoryCut (nVars varIdx : ℕ) (value : ℚ) : (ℕ → ℚ) × ℚ :=
  (fun i => if i < nVars ∧ i = varIdx then 1 else 0, (⌊value⌋ : ℚ))

/-- A point satisfies the simple cut when `coeffs · z ≤ rhs` over the
`nVars` columns. -/
def simpleCutSatisfied (nVars varIdx : ℕ) (value : ℚ) (z : ℕ → ℚ) : Prop :=
  ((Finset.range nVars).sum fun i => (simpleGomoryCut nVars varIdx value).1 i * z i) ≤
    (simpleGomoryCut nVars varIdx value).2

/-! ## The cut manager and the iteration loop
(src/algorithm/gomory.py, `Gomory.solve_problem`) -/

/-- Solver status, the part of CPLEX's status string the loop inspects. -/
inductive SStatus where
  | optimal : SStatus
  | infeasible : SStatus
  | other : SStatus
deriving DecidableEq

/-- Descending order on cut violation: the sort key of
`cuts_to_process.sort(key=..., reverse=True)`. -/
def violGE (a b : CutG) : Prop := b.violation ≤ a.violation

instance : DecidableRel violGE := fun a b =>
  inferInstanceAs (Decidable (b.violation ≤ a.violation))

instance : IsTotal CutG violGE :=
  ⟨fun a b => le_total b.violation a.violation⟩

instance : IsTrans CutG violGE :=
  ⟨fun _ _ _ hab hbc => le_trans hbc hab⟩

/-- The stable descending sort by violation applied to each iteration's
cut list. -/
def sortCuts (cuts : List CutG) : List CutG := List.insertionSort violGE cuts

/-- State of the relaxation while an iteration's cuts are being tried:
the named cut rows added so far (name = (iteration, index)), the incumbent
objective value, and the number of cuts accepted in this iteration. -/
structure RelaxState where
  rows : List (ℕ × ℕ × CutG)
  sol : ℚ
  adds : ℕ
deriving DecidableEq

/-- CPLEX `linear_constraints.delete(cut_name)`: remove the first
constraint carrying the given (iteration, index) name. -/
def eraseRow (iter i : ℕ) (rows : List (ℕ × ℕ × CutG)) : List (ℕ × ℕ × CutG) :=
  rows.eraseP (fun row => decide (row.1 = iter ∧ row.2.1 = i))

/-- The inner loop of `Gomory.solve_problem` (src/algorithm/gomory.py,
lines 271–291): each cut is added as a named row and the relaxation
re-solved (`resp i` = status and objective of that re-solve); if the status
is not optimal or the objective exceeds `optSol + ε` the row is deleted
again, otherwise the incumbent objective is updated and the acceptance
counter incremented; processing then continues with the next cut. -/
def processCuts (optSol ε : ℚ) (iter : ℕ) :
    List CutG → (ℕ → SStatus × ℚ) → ℕ → RelaxState → RelaxState
  | [], _, _, s => s
  | c :: cs, resp, i, s =>
      let s1 : RelaxState := ⟨s.rows ++ [(iter, i, c)], s.sol, s.adds⟩
      let r := resp i
      if r.1 = SStatus.optimal ∧ ¬ (optSol + ε < r.2) then
        processCuts optSol ε iter cs resp (i + 1) ⟨s1.rows, r.2, s1.adds + 1⟩
      else
        processCuts optSol ε iter cs resp (i + 1) ⟨eraseRow iter i s1.rows, s1.sol, s1.adds⟩

/-- Loop-level state of `Gomory.solve_problem`: iteration counter, elapsed
time, total cuts added, incumbent objective, solver status, the appended
cut rows of the relaxation, and the per-iteration statistics records
(iteration, objective, cumulative cuts). -/
structure LoopState where
  iteration : ℕ
  totalTime : ℚ
  numTotalCuts : ℕ
  sol : ℚ
  status : SStatus
  relax : List (ℕ × ℕ × CutG)
  records : List (ℕ × ℚ × ℕ)
deriving DecidableEq

/-- `relativeGap`: the quantity
`modulus(sol, optimal_sol) / (abs(optimal_sol) + 1e-6)` tested by the loop
guard of `Gomory.solve_problem` (line 226). -/
def relativeGap (optSol sol : ℚ) : ℚ := |sol - optSol| / (|optSol| + 1 / 1000000)

/-- The `while` guard of `Gomory.solve_problem` (lines 225–227):
time budget, global cut budget (`MAX_TOTAL_CUTS = 500`), relative gap above
`THRESHOLD_GAP = 0.05`, optimal status, and `iteration ≤ MAX_ITERATIONS`
(`MAX_ITERATIONS = 1000`, from src/config.py). -/
def loopGuard (optSol : ℚ) (s : LoopState) : Bool :=
  decide (s.totalTime ≤ 3600) && decide (s.numTotalCuts ≤ 500) &&
  decide (1 / 20 < relativeGap optSol s.sol) && decide (s.status = SStatus.optimal) &&
  decide (s.iteration ≤ 1000)

/-- Why an iteration broke out of the loop. -/
inductive StopReason where
  | noCutsGenerated : StopReason
  | noCutsAdded : StopReason
deriving DecidableEq

/-- Result of one loop body: either a `break` with its reason, or the state
for the next iteration. -/
inductive StepRes where
  | stop : StopReason → LoopState → StepRes
  | next : LoopState → StepRes
deriving DecidableEq

/-- One body of the `while` loop of `Gomory.solve_problem` (lines 229–302):
generate this iteration's cuts (`gen`), break if none; sort them by
violation descending; try each in turn (`processCuts`, with `resp` the
re-solve oracle); record the iteration's statistics; break if no cut was
stably added; otherwise advance time and the iteration counter. -/
def loopBody (optSol ε : ℚ) (gen : ℕ → List CutG) (resp : ℕ → ℕ → SStatus × ℚ)
    (itime : ℕ → ℚ) (s : LoopState) : StepRes :=
  let cuts := gen s.iteration
  if cuts = [] then StepRes.stop StopReason.noCutsGenerated s
  else
    let p := processCuts optSol ε s.iteration (sortCuts cuts) (resp s.iteration) 0
      ⟨s.relax, s.sol, 0⟩
    let s1 : LoopState :=
      ⟨s.iteration, s.totalTime, s.numTotalCuts + p.adds, p.sol, s.status, p.rows,
        s.records ++ [(s.iteration, p.sol, s.numTotalCuts + p.adds)]⟩
    if p.adds = 0 then StepRes.stop StopReason.noCutsAdded s1
    else StepRes.next
      ⟨s1.iteration + 1, s1.totalTime + itime s.iteration, s1.numTotalCuts, s1.sol,
        s1.status, s1.relax, s1.records⟩

/-- The `while` loop of `Gomory.solve_problem`, run with the given fuel
(any fuel above `MAX_ITERATIONS` is enough, see `loopRun` fuel-independence
below).  Returns the final state, the number of loop bodies executed, and
the reason for a `break` exit (or `none` for a guard exit). -/
def loopRun (optSol ε : ℚ) (gen : ℕ → List CutG) (resp : ℕ → ℕ → SStatus × ℚ)
    (itime : ℕ → ℚ) : ℕ → LoopState → LoopState × ℕ × Option StopReason
  | 0, s => (s, 0, none)
  | fuel + 1, s =>
      if loopGuard optSol s then
        match loopBody optSol ε gen resp itime s with
        | StepRes.stop r s' => (s', 1, some r)
        | StepRes.next s' =>
            let t := loopRun optSol ε gen resp itime fuel s'
            (t.1, t.2.1 + 1, t.2.2)
      else (s, 0, none)

/-- One pass of the `BEST`-mode interleaving loop of `Gomory.solve_problem`
(lines 247–251): append `cuts_gmi[i]` when `i < len_gmi` and `cuts_gfc[i]`
when `i < len_gfc`.  Out-of-range list access (Python `IndexError`) is
modelled as `none`. -/
def bestStep (gmiS gfcS : List CutG) (lenGmi lenGfc : ℕ) (acc : List CutG) (i : ℕ) :
    Option (List CutG) :=
  match (if i < lenGmi then (gmiS.get? i).map (fun c => acc ++ [c]) else some acc) with
  | none => none
  | some acc1 =>
      if i < lenGfc then (gfcS.get? i).map (fun c => acc1 ++ [c]) else some acc1

/-- The `BEST`-mode combination of `Gomory.solve_problem` (lines 237–251):
both generated lists are sorted by violation descending, then merged index
by index over `range(max_len)`; faithfully to the source, `len_gfc` is set
to `len(cuts_gmi)` (line 245). -/
def bestCombine (gmi gfc : List CutG) : Option (List CutG) :=
  let gmiS := sortCuts gmi
  let gfcS := sortCuts gfc
  let lenGmi := gmiS.length
  let lenGfc := gmiS.length
  (List.range (max lenGmi lenGfc)).foldlM (bestStep gmiS gfcS lenGmi lenGfc) []

/-! ## List summation helpers -/

theorem mapSum_le {α : Type} (l : List α) (f g : α → ℚ) (h : ∀ a ∈ l, f a ≤ g a) :
    (l.map f).sum ≤ (l.map g).sum := by
  induction l with
  | nil => simp
  | cons a l ih =>
      simp only [List.map_cons, List.sum_cons]
      have h1 := h a (by simp)
      have h2 := ih (fun b hb => h b (by simp [hb]))
      linarith

theorem mapSum_nonneg {α : Type} (l : List α) (f : α → ℚ) (h : ∀ a ∈ l, 0 ≤ f a) :
    0 ≤ (l.map f).sum := by
  have := mapSum_le l (fun _ => 0) f h
  simpa using this

theorem mapSum_add {α : Type} (l : List α) (f g : α → ℚ) :
    (l.map fun a => f a + g a).sum = (l.map f).sum + (l.map g).sum := by
  induction l with
  | nil => simp
  | cons a l ih => simp only [List.map_cons, List.sum_cons, ih]; ring

theorem mapSum_sub {α : Type} (l : List α) (f g : α → ℚ) :
    (l.map fun a => f a - g a).sum = (l.map f).sum - (l.map g).sum := by
  induction l with
  | nil => simp
  | cons a l ih => simp only [List.map_cons, List.sum_cons, ih]; ring

theorem mapSum_neg {α : Type} (l : List α) (f : α → ℚ) :
    (l.map fun a => -(f a)).sum = -((l.map f).sum) := by
  induction l with
  | nil => simp
  | cons a l ih => simp only [List.map_cons, List.sum_cons, ih]; ring

theorem mapSum_mul_left {α : Type} (l : List α) (c : ℚ) (f : α → ℚ) :
    (l.map fun a => c * f a).sum = c * (l.map f).sum := by
  induction l with
  | nil => simp
  | cons a l ih => simp only [List.map_cons, List.sum_cons, ih]; ring

theorem mapSum_congr {α : Type} (l : List α) (f g : α → ℚ) (h : ∀ a ∈ l, f a = g a) :
    (l.map f).sum = (l.map g).sum := by
  have h1 := mapSum_le l f g (fun a ha => le_of_eq (h a ha))
  have h2 := mapSum_le l g f (fun a ha => ge_of_eq (h a ha))
  linarith

/-! ## Sample cuts used in concrete evaluations -/

/-- A sample generated cut (`x_0 ≥ 1`, violation 1). -/
def cutA : CutG := ⟨[0], [1], 1, CSense.G, 1⟩

/-! ## Claim C10 -/

/-- **C10.** In `BEST` mode the interleaving of the sorted GMI and GFC cut
lists is claimed to access only in-bounds indices of both lists, in
particular when the GMI list is longer.  On the code this fails: with a
GMI list of length 2 and a GFC list of length 1, `len_gfc` is set to
`len(cuts_gmi) = 2` (line 245 of src/algorithm/gomory.py), so the loop
evaluates `cuts_gfc[1]`, which is out of bounds — the merge raises
`IndexError` (modelled as `none`). -/
theorem C10_best_merge_index_error :
    bestCombine [cutA, cutA] [cutA] = none := by
  have hs2 : sortCuts [cutA, cutA] = [cutA, cutA] := by
    simp [sortCuts, List.insertionSort, List.orderedInsert, violGE]
  have hs1 : sortCuts [cutA] = [cutA] := by
    simp [sortCuts, List.insertionSort]
  rw [bestCombine]
  simp only [hs2, hs1, List.length_cons, List.length_nil]
  rw [show max (0 + 1 + 1) (0 + 1 + 1) = 2 from rfl]
  rw [show List.range 2 = [0, 1] from rfl]
  simp [bestStep, List.foldlM]

/-- Unfolding lemma for one step of `processCuts`. -/
theorem processCuts_cons (optSol ε : ℚ) (iter : ℕ) (c : CutG) (cs : List CutG)
    (resp : ℕ → SStatus × ℚ) (i : ℕ) (s : RelaxState) :
    processCuts optSol ε iter (c :: cs) resp i s =
      if (resp i).1 = SStatus.optimal ∧ ¬ (optSol + ε < (resp i).2) then
        processCuts optSol ε iter cs resp (i + 1)
          ⟨s.rows ++ [(iter, i, c)], (resp i).2, s.adds + 1⟩
      else
        processCuts optSol ε iter cs resp (i + 1)
          ⟨eraseRow iter i (s.rows ++ [(iter, i, c)]), s.sol, s.adds⟩ := rfl

/-! ## Claim C6 -/

theorem eraseRow_fresh_append (iter i : ℕ) (c : CutG) (rows : List (ℕ × ℕ × CutG))
    (hfresh : ∀ row ∈ rows, ¬ (row.1 = iter ∧ row.2.1 = i)) :
    eraseRow iter i (rows ++ [(iter, i, c)]) = rows := by
  unfold eraseRow
  rw [List.eraseP_append_right _ (by intro b hb; simpa using hfresh b hb)]
  simp

/-- **C6.** When the re-solve after adding a cut is not optimal, or its
objective moves past the reference optimum bound (`optSol + ε`), the cut's
row is deleted again and processing continues with the next candidate in
the same iteration: the whole processing of `c :: cs` equals the processing
of `cs` alone (with the next cut name index) from the unchanged relaxation
state — the constraint set, incumbent objective and acceptance count are
restored exactly.  The freshness hypothesis reflects the uniquely numbered
cut names `f"{mode}_{iteration}_{i}"`. -/
theorem C6_rejected_cut_rolled_back (optSol ε : ℚ) (iter i : ℕ) (c : CutG)
    (cs : List CutG) (resp : ℕ → SStatus × ℚ) (s : RelaxState)
    (hrej : (resp i).1 ≠ SStatus.optimal ∨ optSol + ε < (resp i).2)
    (hfresh : ∀ row ∈ s.rows, ¬ (row.1 = iter ∧ row.2.1 = i)) :
    processCuts optSol ε iter (c :: cs) resp i s =
      processCuts optSol ε iter cs resp (i + 1) s := by
  have hcond : ¬ ((resp i).1 = SStatus.optimal ∧ ¬ (optSol + ε < (resp i).2)) := by
    tauto
  rw [processCuts_cons, if_neg hcond, eraseRow_fresh_append iter i c s.rows hfresh]

/-- **C6 witness.**  A rejected (infeasible re-solve) first cut leaves the
relaxation state exactly as it was, and the remaining (empty) candidate
list is still processed. -/
theorem C6_witness :
    processCuts 0 0 1 [cutA] (fun _ => (SStatus.infeasible, 0)) 0 ⟨[], 5, 0⟩ =
      processCuts 0 0 1 [] (fun _ => (SStatus.infeasible, 0)) 1 ⟨[], 5, 0⟩ :=
  C6_rejected_cut_rolled_back 0 0 1 0 cutA [] (fun _ => (SStatus.infeasible, 0))
    ⟨[], 5, 0⟩ (Or.inl (by decide)) (by simp)

/-! ## Claim C5 -/

theorem processCuts_adds_le (optSol ε : ℚ) (iter : ℕ) (cuts : List CutG) :
    ∀ (resp : ℕ → SStatus × ℚ) (i : ℕ) (s : RelaxState),
      (processCuts optSol ε iter cuts resp i s).adds ≤ s.adds + cuts.length := by
  induction cuts with
  | nil => intro resp i s; simp [processCuts]
  | cons c cs ih =>
      intro resp i s
      rw [processCuts_cons]
      by_cases h : (resp i).1 = SStatus.optimal ∧ ¬ (optSol + ε < (resp i).2)
      · rw [if_pos h]
        have := ih resp (i + 1) ⟨s.rows ++ [(iter, i, c)], (resp i).2, s.adds + 1⟩
        simp only [List.length_cons] at this ⊢
        omega
      · rw [if_neg h]
        have := ih resp (i + 1)
          ⟨eraseRow iter i (s.rows ++ [(iter, i, c)]), s.sol, s.adds⟩
        simp only [List.length_cons] at this ⊢
        omega

theorem processCuts_rows_le (optSol ε : ℚ) (iter : ℕ) (cuts : List CutG) :
    ∀ (resp : ℕ → SStatus × ℚ) (i : ℕ) (s : RelaxState),
      (processCuts optSol ε iter cuts resp i s).rows.length ≤
        s.rows.length + cuts.length := by
  induction cuts with
  | nil => intro resp i s; simp [processCuts]
  | cons c cs ih =>
      intro resp i s
      rw [processCuts_cons]
      by_cases h : (resp i).1 = SStatus.optimal ∧ ¬ (optSol + ε < (resp i).2)
      · rw [if_pos h]
        have := ih resp (i + 1) ⟨s.rows ++ [(iter, i, c)], (resp i).2, s.adds + 1⟩
        simp only [List.length_append, List.length_cons, List.length_nil] at this ⊢
        omega
      · rw [if_neg h]
        have := ih resp (i + 1)
          ⟨eraseRow iter i (s.rows ++ [(iter, i, c)]), s.sol, s.adds⟩
        have herase : (eraseRow iter i (s.rows ++ [(iter, i, c)])).length ≤
            s.rows.length + 1 := by
          have h1 := List.length_eraseP_le (p := fun row =>
            decide (row.1 = iter ∧ row.2.1 = i)) (s.rows ++ [(iter, i, c)])
          simpa [eraseRow] using h1
        simp only [List.length_cons] at this ⊢
        omega

/-- **C5 (amended).** The cut manager sorts each iteration's generated cuts
by violation in descending order, but applies no per-iteration cap: every
sorted cut is attempted, so the only bound on the acceptance count and on
the constraint rows added in one iteration is the number of generated cuts
itself. -/
theorem C5_sorted_and_bounded_by_generated (optSol ε : ℚ) (iter : ℕ)
    (cuts : List CutG) (resp : ℕ → SStatus × ℚ) (i : ℕ) (s : RelaxState) :
    List.Sorted violGE (sortCuts cuts) ∧
    (processCuts optSol ε iter (sortCuts cuts) resp i s).adds ≤
      s.adds + cuts.length ∧
    (processCuts optSol ε iter (sortCuts cuts) resp i s).rows.length ≤
      s.rows.length + cuts.length := by
  refine ⟨List.sorted_insertionSort violGE cuts, ?_, ?_⟩
  · have := processCuts_adds_le optSol ε iter (sortCuts cuts) resp i s
    rwa [show (sortCuts cuts).length = cuts.length from
      List.length_insertionSort violGE cuts] at this
  · have := processCuts_rows_le optSol ε iter (sortCuts cuts) resp i s
    rwa [show (sortCuts cuts).length = cuts.length from
      List.length_insertionSort violGE cuts] at this

/-- **C5 witness.**  The bounds instantiated at a concrete iteration. -/
theorem C5_witness :
    List.Sorted violGE (sortCuts [cutA]) ∧
    (processCuts 0 0 1 (sortCuts [cutA]) (fun _ => (SStatus.optimal, 0)) 0
      ⟨[], 0, 0⟩).adds ≤ 0 + 1 ∧
    (processCuts 0 0 1 (sortCuts [cutA]) (fun _ => (SStatus.optimal, 0)) 0
      ⟨[], 0, 0⟩).rows.length ≤ 0 + 1 := by
  have h := C5_sorted_and_bounded_by_generated 0 0 1 [cutA]
    (fun _ => (SStatus.optimal, 0)) 0 ⟨[], 0, 0⟩
  simpa using h

theorem processCuts_adds_accept_all (optSol ε : ℚ) (iter : ℕ) (cuts : List CutG) :
    ∀ (resp : ℕ → SStatus × ℚ) (i : ℕ) (s : RelaxState),
      (∀ k, (resp k).1 = SStatus.optimal ∧ ¬ (optSol + ε < (resp k).2)) →
      (processCuts optSol ε iter cuts resp i s).adds = s.adds + cuts.length := by
  induction cuts with
  | nil => intro resp i s _; simp [processCuts]
  | cons c cs ih =>
      intro resp i s hall
      rw [processCuts_cons, if_pos (hall i)]
      have := ih resp (i + 1) ⟨s.rows ++ [(iter, i, c)], (resp i).2, s.adds + 1⟩ hall
      simp only [List.length_cons] at this ⊢
      omega

theorem sortCuts_replicate (n : ℕ) :
    sortCuts (List.replicate n cutA) = List.replicate n cutA := by
  induction n with
  | zero => rfl
  | succ n ih =>
      show List.insertionSort violGE (cutA :: List.replicate n cutA) = _
      show List.orderedInsert violGE cutA
        (List.insertionSort violGE (List.replicate n cutA)) = _
      rw [show List.insertionSort violGE (List.replicate n cutA) =
        sortCuts (List.replicate n cutA) from rfl, ih]
      cases n with
      | zero => rfl
      | succ m =>
          rw [List.replicate_succ, List.orderedInsert,
            if_pos (show violGE cutA cutA from le_refl cutA.violation)]
          simp [List.replicate_succ]

/-- **C5 counterexample.** The claim's per-iteration cap (at most 10–50
cuts added to the relaxation in one iteration) fails on the code: an
iteration whose generator produced 51 cuts, all of which re-solve optimally
within the reference bound, adds all 51 of them — `solve_problem` has no
per-iteration cap at all. -/
theorem C5_no_per_iteration_cap :
    (processCuts 0 0 1 (sortCuts (List.replicate 51 cutA))
      (fun _ => (SStatus.optimal, 0)) 0 ⟨[], 0, 0⟩).adds = 51 ∧ ¬ (51 ≤ 50) := by
  constructor
  · rw [sortCuts_replicate]
    have := processCuts_adds_accept_all 0 0 1 (List.replicate 51 cutA)
      (fun _ => (SStatus.optimal, 0)) 0 ⟨[], 0, 0⟩
      (fun k => ⟨rfl, by norm_num⟩)
    simpa using this
  · omega

/-! ## Loop unfolding lemmas -/

theorem loopRun_succ_guard_false (optSol ε : ℚ) (gen : ℕ → List CutG)
    (resp : ℕ → ℕ → SStatus × ℚ) (itime : ℕ → ℚ) (fuel : ℕ) (s : LoopState)
    (h : ¬ loopGuard optSol s = true) :
    loopRun optSol ε gen resp itime (fuel + 1) s = (s, 0, none) := by
  simp only [loopRun]
  rw [if_neg h]

theorem loopRun_succ_stop (optSol ε : ℚ) (gen : ℕ → List CutG)
    (resp : ℕ → ℕ → SStatus × ℚ) (itime : ℕ → ℚ) (fuel : ℕ) (s s' : LoopState)
    (r : StopReason) (hg : loopGuard optSol s = true)
    (hb : loopBody optSol ε gen resp itime s = StepRes.stop r s') :
    loopRun optSol ε gen resp itime (fuel + 1) s = (s', 1, some r) := by
  simp only [loopRun]
  rw [if_pos hg, hb]

theorem loopRun_succ_next (optSol ε : ℚ) (gen : ℕ → List CutG)
    (resp : ℕ → ℕ → SStatus × ℚ) (itime : ℕ → ℚ) (fuel : ℕ) (s s' : LoopState)
    (hg : loopGuard optSol s = true)
    (hb : loopBody optSol ε gen resp itime s = StepRes.next s') :
    loopRun optSol ε gen resp itime (fuel + 1) s =
      ((loopRun optSol ε gen resp itime fuel s').1,
        (loopRun optSol ε gen resp itime fuel s').2.1 + 1,
        (loopRun optSol ε gen resp itime fuel s').2.2) := by
  simp only [loopRun]
  rw [if_pos hg, hb]

theorem loopGuard_iteration_le (optSol : ℚ) (s : LoopState)
    (hg : loopGuard optSol s = true) : s.iteration ≤ 1000 := by
  simp only [loopGuard, Bool.and_eq_true, decide_eq_true_eq] at hg
  exact hg.2

theorem loopBody_next_iteration (optSol ε : ℚ) (gen : ℕ → List CutG)
    (resp : ℕ → ℕ → SStatus × ℚ) (itime : ℕ → ℚ) (s s' : LoopState)
    (hb : loopBody optSol ε gen resp itime s = StepRes.next s') :
    s'.iteration = s.iteration + 1 := by
  by_cases hne : gen s.iteration = []
  · simp [loopBody, hne] at hb
  · by_cases hz : (processCuts optSol ε s.iteration (sortCuts (gen s.iteration))
      (resp s.iteration) 0 ⟨s.relax, s.sol, 0⟩).adds = 0
    · simp [loopBody, hne, hz] at hb
    · simp only [loopBody] at hb
      rw [if_neg hne, if_neg hz] at hb
      cases hb
      rfl

theorem loopRun_count_le (optSol ε : ℚ) (gen : ℕ → List CutG)
    (resp : ℕ → ℕ → SStatus × ℚ) (itime : ℕ → ℚ) :
    ∀ (fuel : ℕ) (s : LoopState),
      (loopRun optSol ε gen resp itime fuel s).2.1 ≤ 1001 - s.iteration := by
  intro fuel
  induction fuel with
  | zero => intro s; simp [loopRun]
  | succ f ih =>
      intro s
      by_cases hg : loopGuard optSol s = true
      · have hiter := loopGuard_iteration_le optSol s hg
        cases hb : loopBody optSol ε gen resp itime s with
        | stop r s' =>
            rw [loopRun_succ_stop optSol ε gen resp itime f s s' r hg hb]
            show (1 : ℕ) ≤ 1001 - s.iteration
            omega
        | next s' =>
            rw [loopRun_succ_next optSol ε gen resp itime f s s' hg hb]
            have h1 := ih s'
            have h2 := loopBody_next_iteration optSol ε gen resp itime s s' hb
            simp only []
            omega
      · rw [loopRun_succ_guard_false optSol ε gen resp itime f s hg]
        show (0 : ℕ) ≤ 1001 - s.iteration
        omega

theorem loopRun_fuel_indep (optSol ε : ℚ) (gen : ℕ → List CutG)
    (resp : ℕ → ℕ → SStatus × ℚ) (itime : ℕ → ℚ) :
    ∀ (f1 f2 : ℕ) (s : LoopState),
      1001 - s.iteration < f1 → 1001 - s.iteration < f2 →
      loopRun optSol ε gen resp itime f1 s = loopRun optSol ε gen resp itime f2 s := by
  intro f1
  induction f1 with
  | zero => intro f2 s h1 _; omega
  | succ f ih =>
      intro f2 s h1 h2
      obtain ⟨g, rfl⟩ : ∃ g, f2 = g + 1 := ⟨f2 - 1, by omega⟩
      by_cases hg : loopGuard optSol s = true
      · have hiter := loopGuard_iteration_le optSol s hg
        cases hb : loopBody optSol ε gen resp itime s with
        | stop r s' =>
            rw [loopRun_succ_stop optSol ε gen resp itime f s s' r hg hb,
              loopRun_succ_stop optSol ε gen resp itime g s s' r hg hb]
        | next s' =>
            rw [loopRun_succ_next optSol ε gen resp itime f s s' hg hb,
              loopRun_succ_next optSol ε gen resp itime g s s' hg hb]
            have hstep := loopBody_next_iteration optSol ε gen resp itime s s' hb
            rw [ih g s' (by omega) (by omega)]
      · rw [loopRun_succ_guard_false optSol ε gen resp itime f s hg,
          loopRun_succ_guard_false optSol ε gen resp itime g s hg]

/-! ## Claim C7 -/

/-- **C7.** Starting at iteration 1 (as `solve_problem` does), the cutting
plane loop executes at most `MAX_ITERATIONS = 1000` loop bodies, and its
result is independent of any sufficiently large fuel — i.e. the loop always
terminates within the iteration budget, for every generator, re-solve and
timing oracle (in particular for every instance with a finite reference
optimum `optSol : ℚ`). -/
theorem C7_terminates_within_max_iterations (optSol ε : ℚ) (gen : ℕ → List CutG)
    (resp : ℕ → ℕ → SStatus × ℚ) (itime : ℕ → ℚ) (s : LoopState) (f1 f2 : ℕ)
    (hinit : s.iteration = 1) (h1 : 1000 < f1) (h2 : 1000 < f2) :
    (loopRun optSol ε gen resp itime f1 s).2.1 ≤ 1000 ∧
    loopRun optSol ε gen resp itime f1 s = loopRun optSol ε gen resp itime f2 s := by
  constructor
  · have := loopRun_count_le optSol ε gen resp itime f1 s
    omega
  · exact loopRun_fuel_indep optSol ε gen resp itime f1 f2 s (by omega) (by omega)

/-- **C7 witness.** The bound and fuel-independence instantiated at a
concrete start state and oracles. -/
theorem C7_witness :
    (loopRun 0 0 (fun _ => []) (fun _ _ => (SStatus.optimal, 0)) (fun _ => 0) 1001
      ⟨1, 0, 0, 100, SStatus.optimal, [], []⟩).2.1 ≤ 1000 ∧
    loopRun 0 0 (fun _ => []) (fun _ _ => (SStatus.optimal, 0)) (fun _ => 0) 1001
      ⟨1, 0, 0, 100, SStatus.optimal, [], []⟩ =
    loopRun 0 0 (fun _ => []) (fun _ _ => (SStatus.optimal, 0)) (fun _ => 0) 1002
      ⟨1, 0, 0, 100, SStatus.optimal, [], []⟩ :=
  C7_terminates_within_max_iterations 0 0 (fun _ => []) (fun _ _ => (SStatus.optimal, 0))
    (fun _ => 0) ⟨1, 0, 0, 100, SStatus.optimal, [], []⟩ 1001 1002 rfl
    (by omega) (by omega)

/-! ## Claim C9 -/

/-- **C9.** The loop guard recomputes
`relativeGap = |sol - optSol| / (|optSol| + 1e-6)` on every pass; the
denominator is strictly positive for every reference optimum, and as soon
as the gap is at or below `THRESHOLD_GAP = 0.05` the loop terminates at
once (the run performs zero further loop bodies), successfully returning
the current state. -/
theorem C9_gap_closes_loop (optSol ε : ℚ) (gen : ℕ → List CutG)
    (resp : ℕ → ℕ → SStatus × ℚ) (itime : ℕ → ℚ) (s : LoopState) (fuel : ℕ)
    (hgap : relativeGap optSol s.sol ≤ 1 / 20) :
    0 < |optSol| + (1 : ℚ) / 1000000 ∧
    loopRun optSol ε gen resp itime fuel s = (s, 0, none) := by
  constructor
  · have := abs_nonneg optSol
    linarith
  · have hguard : ¬ loopGuard optSol s = true := by
      simp only [loopGuard, Bool.and_eq_true, decide_eq_true_eq]
      intro hcontra
      have := hcontra.1.1.1.2
      linarith
    cases fuel with
    | zero => rfl
    | succ f => exact loopRun_succ_guard_false optSol ε gen resp itime f s hguard

/-- **C9 witness.** With the incumbent objective equal to the reference
optimum the gap is zero, and the loop stops immediately. -/
theorem C9_witness :
    0 < |(10 : ℚ)| + (1 : ℚ) / 1000000 ∧
    loopRun 10 0 (fun _ => [cutA]) (fun _ _ => (SStatus.optimal, 0)) (fun _ => 0) 1001
      ⟨1, 0, 0, 10, SStatus.optimal, [], []⟩ =
    (⟨1, 0, 0, 10, SStatus.optimal, [], []⟩, 0, none) :=
  C9_gap_closes_loop 10 0 (fun _ => [cutA]) (fun _ _ => (SStatus.optimal, 0))
    (fun _ => 0) ⟨1, 0, 0, 10, SStatus.optimal, [], []⟩ 1001
    (by norm_num [relativeGap])

/-! ## Claim C8 -/

theorem loopBody_stop_records (optSol ε : ℚ) (gen : ℕ → List CutG)
    (resp : ℕ → ℕ → SStatus × ℚ) (itime : ℕ → ℚ) (s s' : LoopState) (r : StopReason)
    (hb : loopBody optSol ε gen resp itime s = StepRes.stop r s') :
    s.records <+: s'.records := by
  by_cases hne : gen s.iteration = []
  · simp only [loopBody, if_pos hne] at hb
    injection hb with h1 h2
    subst h2
    exact List.prefix_refl _
  · by_cases hz : (processCuts optSol ε s.iteration (sortCuts (gen s.iteration))
      (resp s.iteration) 0 ⟨s.relax, s.sol, 0⟩).adds = 0
    · simp only [loopBody] at hb
      rw [if_neg hne, if_pos hz] at hb
      injection hb with h1 h2
      subst h2
      exact List.prefix_append _ _
    · simp only [loopBody] at hb
      rw [if_neg hne, if_neg hz] at hb
      exact StepRes.noConfusion hb

theorem loopBody_next_records (optSol ε : ℚ) (gen : ℕ → List CutG)
    (resp : ℕ → ℕ → SStatus × ℚ) (itime : ℕ → ℚ) (s s' : LoopState)
    (hb : loopBody optSol ε gen resp itime s = StepRes.next s') :
    s.records <+: s'.records := by
  by_cases hne : gen s.iteration = []
  · simp only [loopBody, if_pos hne] at hb
    exact StepRes.noConfusion hb
  · by_cases hz : (processCuts optSol ε s.iteration (sortCuts (gen s.iteration))
      (resp s.iteration) 0 ⟨s.relax, s.sol, 0⟩).adds = 0
    · simp only [loopBody] at hb
      rw [if_neg hne, if_pos hz] at hb
      exact StepRes.noConfusion hb
    · simp only [loopBody] at hb
      rw [if_neg hne, if_neg hz] at hb
      injection hb with h1
      subst h1
      exact List.prefix_append _ _

theorem loopRun_records_prefix (optSol ε : ℚ) (gen : ℕ → List CutG)
    (resp : ℕ → ℕ → SStatus × ℚ) (itime : ℕ → ℚ) :
    ∀ (fuel : ℕ) (s : LoopState),
      s.records <+: (loopRun optSol ε gen resp itime fuel s).1.records := by
  intro fuel
  induction fuel with
  | zero => intro s; exact List.prefix_refl _
  | succ f ih =>
      intro s
      by_cases hg : loopGuard optSol s = true
      · cases hb : loopBody optSol ε gen resp itime s with
        | stop r s' =>
            rw [loopRun_succ_stop optSol ε gen resp itime f s s' r hg hb]
            exact loopBody_stop_records optSol ε gen resp itime s s' r hb
        | next s' =>
            rw [loopRun_succ_next optSol ε gen resp itime f s s' hg hb]
            exact (loopBody_next_records optSol ε gen resp itime s s' hb).trans (ih s')
      · rw [loopRun_succ_guard_false optSol ε gen resp itime f s hg]

theorem loopRun_count_pos (optSol ε : ℚ) (gen : ℕ → List CutG)
    (resp : ℕ → ℕ → SStatus × ℚ) (itime : ℕ → ℚ) (f : ℕ) (s : LoopState)
    (hg : loopGuard optSol s = true) :
    1 ≤ (loopRun optSol ε gen resp itime (f + 1) s).2.1 := by
  cases hb : loopBody optSol ε gen resp itime s with
  | stop r s' =>
      rw [loopRun_succ_stop optSol ε gen resp itime f s s' r hg hb]
  | next s' =>
      rw [loopRun_succ_next optSol ε gen resp itime f s s' hg hb]
      exact Nat.le_add_left 1 _

/-- **C8 (amended).** A body of the `solve_problem` loop breaks out in a
stalled state exactly when that iteration generated no cuts or stably added
zero cuts.  There is no other stall condition in this loop — in particular
no count of consecutive iterations with an unchanged objective (that
tailing-off stop exists only in the separate `analysis/gomory.py` loop,
which in turn has no zero-cuts-added stop). -/
theorem C8_stall_iff_zero_cuts (optSol ε : ℚ) (gen : ℕ → List CutG)
    (resp : ℕ → ℕ → SStatus × ℚ) (itime : ℕ → ℚ) (s : LoopState) :
    (∃ r s', loopBody optSol ε gen resp itime s = StepRes.stop r s') ↔
      (gen s.iteration = [] ∨
        (processCuts optSol ε s.iteration (sortCuts (gen s.iteration))
          (resp s.iteration) 0 ⟨s.relax, s.sol, 0⟩).adds = 0) := by
  by_cases hne : gen s.iteration = []
  · constructor
    · intro _; exact Or.inl hne
    · intro _
      exact ⟨StopReason.noCutsGenerated, s, by simp [loopBody, hne]⟩
  · by_cases hz : (processCuts optSol ε s.iteration (sortCuts (gen s.iteration))
      (resp s.iteration) 0 ⟨s.relax, s.sol, 0⟩).adds = 0
    · constructor
      · intro _; exact Or.inr hz
      · intro _
        refine ⟨StopReason.noCutsAdded,
          ⟨s.iteration, s.totalTime,
            s.numTotalCuts + (processCuts optSol ε s.iteration
              (sortCuts (gen s.iteration)) (resp s.iteration) 0
              ⟨s.relax, s.sol, 0⟩).adds,
            (processCuts optSol ε s.iteration (sortCuts (gen s.iteration))
              (resp s.iteration) 0 ⟨s.relax, s.sol, 0⟩).sol,
            s.status,
            (processCuts optSol ε s.iteration (sortCuts (gen s.iteration))
              (resp s.iteration) 0 ⟨s.relax, s.sol, 0⟩).rows,
            s.records ++ [(s.iteration,
              (processCuts optSol ε s.iteration (sortCuts (gen s.iteration))
                (resp s.iteration) 0 ⟨s.relax, s.sol, 0⟩).sol,
              s.numTotalCuts + (processCuts optSol ε s.iteration
                (sortCuts (gen s.iteration)) (resp s.iteration) 0
                ⟨s.relax, s.sol, 0⟩).adds)]⟩, ?_⟩
        simp only [loopBody]
        rw [if_neg hne, if_pos hz]
    · constructor
      · rintro ⟨r, s', hb⟩
        simp only [loopBody] at hb
        rw [if_neg hne, if_neg hz] at hb
        exact StepRes.noConfusion hb
      · intro h
        rcases h with h | h
        · exact absurd h hne
        · exact absurd h hz

/-- When cuts were generated and at least one was accepted, a loop body
steps to the next iteration with the processed relaxation state. -/
theorem loopBody_next_of (optSol ε : ℚ) (gen : ℕ → List CutG)
    (resp : ℕ → ℕ → SStatus × ℚ) (itime : ℕ → ℚ) (s : LoopState) (p : RelaxState)
    (hne : ¬ gen s.iteration = [])
    (hp : processCuts optSol ε s.iteration (sortCuts (gen s.iteration))
      (resp s.iteration) 0 ⟨s.relax, s.sol, 0⟩ = p)
    (hadds : ¬ p.adds = 0) :
    loopBody optSol ε gen resp itime s = StepRes.next
      ⟨s.iteration + 1, s.totalTime + itime s.iteration, s.numTotalCuts + p.adds,
        p.sol, s.status, p.rows,
        s.records ++ [(s.iteration, p.sol, s.numTotalCuts + p.adds)]⟩ := by
  simp only [loopBody, hp]
  rw [if_neg hne, if_neg hadds]

/-- The constant generator of the C8 counterexample: every iteration
produces one cut. -/
def genC8 : ℕ → List CutG := fun _ => [cutA]

/-- Re-solve oracle of the C8 counterexample: always optimal with
objective 5. -/
def respC8 : ℕ → ℕ → SStatus × ℚ := fun _ _ => (SStatus.optimal, 5)

/-- **C8 counterexample.** With reference optimum 10 and a re-solve oracle
that accepts one cut per iteration while never changing the objective
(value 5 from iteration 1 on), the recorded statistics of the real loop
begin `(1,5,1), (2,5,2), (3,5,3), (4,5,4)`: iterations 2, 3 and 4 — three
consecutive iterations — leave the objective unchanged even though each
added a cut, yet the loop executes at least a fifth body instead of
stopping in a stalled state: `solve_problem` has no tailing-off stall. -/
theorem C8_no_tailing_off_stall :
    [(1, (5:ℚ), 1), (2, (5:ℚ), 2), (3, (5:ℚ), 3), (4, (5:ℚ), 4)] <+:
      (loopRun 10 (1/1000000) genC8 respC8 (fun _ => 0) 1001
        ⟨1, 0, 0, 100, SStatus.optimal, [], []⟩).1.records ∧
    5 ≤ (loopRun 10 (1/1000000) genC8 respC8 (fun _ => 0) 1001
        ⟨1, 0, 0, 100, SStatus.optimal, [], []⟩).2.1 := by
  have hgap : (1:ℚ)/20 < relativeGap 10 5 := by
    rw [relativeGap, abs_of_nonpos (by norm_num), abs_of_nonneg (by norm_num)]
    norm_num
  have hguard : ∀ (s : LoopState), s.totalTime = 0 → s.numTotalCuts ≤ 500 →
      s.sol = 5 → s.status = SStatus.optimal → s.iteration ≤ 1000 →
      loopGuard 10 s = true := by
    intro s h1 h2 h3 h4 h5
    simp only [loopGuard, Bool.and_eq_true, decide_eq_true_eq, h1, h3, h4]
    exact ⟨⟨⟨⟨by norm_num, h2⟩, hgap⟩, trivial⟩, h5⟩
  have hg0 : loopGuard 10 ⟨1, 0, 0, 100, SStatus.optimal, [], []⟩ = true := by
    simp only [loopGuard, Bool.and_eq_true, decide_eq_true_eq]
    refine ⟨⟨⟨⟨by norm_num, by norm_num⟩, ?_⟩, trivial⟩, by norm_num⟩
    rw [relativeGap, abs_of_nonneg (by norm_num), abs_of_nonneg (by norm_num)]
    norm_num
  have hstep : ∀ (it : ℕ) (nc : ℕ) (rows : List (ℕ × ℕ × CutG))
      (recs : List (ℕ × ℚ × ℕ)) (sol : ℚ),
      loopBody 10 (1/1000000) genC8 respC8 (fun _ => 0)
        ⟨it, 0, nc, sol, SStatus.optimal, rows, recs⟩ =
      StepRes.next ⟨it + 1, 0, nc + 1, 5, SStatus.optimal, rows ++ [(it, 0, cutA)],
        recs ++ [(it, 5, nc + 1)]⟩ := by
    intro it nc rows recs sol
    have hp : processCuts 10 (1/1000000) it (sortCuts [cutA]) (respC8 it) 0
        ⟨rows, sol, 0⟩ = ⟨rows ++ [(it, 0, cutA)], 5, 1⟩ := by
      rw [show sortCuts [cutA] = [cutA] from rfl, processCuts_cons,
        if_pos ⟨rfl, by norm_num [respC8]⟩]
      rfl
    have h := loopBody_next_of 10 (1/1000000) genC8 respC8 (fun _ => 0)
      ⟨it, 0, nc, sol, SStatus.optimal, rows, recs⟩ ⟨rows ++ [(it, 0, cutA)], 5, 1⟩
      (by simp [genC8]) hp (by norm_num)
    rw [h]
    norm_num
  have hb0 : loopBody 10 (1/1000000) genC8 respC8 (fun _ => 0)
      ⟨1, 0, 0, 100, SStatus.optimal, [], []⟩ =
      StepRes.next ⟨2, 0, 1, 5, SStatus.optimal, [(1, 0, cutA)], [(1, 5, 1)]⟩ := by
    have h := hstep 1 0 [] [] 100
    norm_num at h
    exact h
  have hb1 : loopBody 10 (1/1000000) genC8 respC8 (fun _ => 0)
      ⟨2, 0, 1, 5, SStatus.optimal, [(1, 0, cutA)], [(1, 5, 1)]⟩ =
      StepRes.next ⟨3, 0, 2, 5, SStatus.optimal, [(1, 0, cutA), (2, 0, cutA)],
        [(1, 5, 1), (2, 5, 2)]⟩ := by
    have h := hstep 2 1 [(1, 0, cutA)] [(1, 5, 1)] 5
    norm_num at h
    exact h
  have hb2 : loopBody 10 (1/1000000) genC8 respC8 (fun _ => 0)
      ⟨3, 0, 2, 5, SStatus.optimal, [(1, 0, cutA), (2, 0, cutA)],
        [(1, 5, 1), (2, 5, 2)]⟩ =
      StepRes.next ⟨4, 0, 3, 5, SStatus.optimal,
        [(1, 0, cutA), (2, 0, cutA), (3, 0, cutA)],
        [(1, 5, 1), (2, 5, 2), (3, 5, 3)]⟩ := by
    have h := hstep 3 2 [(1, 0, cutA), (2, 0, cutA)] [(1, 5, 1), (2, 5, 2)] 5
    norm_num at h
    exact h
  have hb3 : loopBody 10 (1/1000000) genC8 respC8 (fun _ => 0)
      ⟨4, 0, 3, 5, SStatus.optimal, [(1, 0, cutA), (2, 0, cutA), (3, 0, cutA)],
        [(1, 5, 1), (2, 5, 2), (3, 5, 3)]⟩ =
      StepRes.next ⟨5, 0, 4, 5, SStatus.optimal,
        [(1, 0, cutA), (2, 0, cutA), (3, 0, cutA), (4, 0, cutA)],
        [(1, 5, 1), (2, 5, 2), (3, 5, 3), (4, 5, 4)]⟩ := by
    have h := hstep 4 3 [(1, 0, cutA), (2, 0, cutA), (3, 0, cutA)]
      [(1, 5, 1), (2, 5, 2), (3, 5, 3)] 5
    norm_num at h
    exact h
  have hg1 := hguard ⟨2, 0, 1, 5, SStatus.optimal, [(1, 0, cutA)], [(1, 5, 1)]⟩
    rfl (by norm_num) rfl rfl (by norm_num)
  have hg2 := hguard ⟨3, 0, 2, 5, SStatus.optimal, [(1, 0, cutA), (2, 0, cutA)],
    [(1, 5, 1), (2, 5, 2)]⟩ rfl (by norm_num) rfl rfl (by norm_num)
  have hg3 := hguard ⟨4, 0, 3, 5, SStatus.optimal,
    [(1, 0, cutA), (2, 0, cutA), (3, 0, cutA)], [(1, 5, 1), (2, 5, 2), (3, 5, 3)]⟩
    rfl (by norm_num) rfl rfl (by norm_num)
  have hg4 := hguard ⟨5, 0, 4, 5, SStatus.optimal,
    [(1, 0, cutA), (2, 0, cutA), (3, 0, cutA), (4, 0, cutA)],
    [(1, 5, 1), (2, 5, 2), (3, 5, 3), (4, 5, 4)]⟩ rfl (by norm_num) rfl rfl
    (by norm_num)
  have e0 := loopRun_succ_next 10 (1/1000000) genC8 respC8 (fun _ => 0) 1000
    ⟨1, 0, 0, 100, SStatus.optimal, [], []⟩ _ hg0 hb0
  have e1 := loopRun_succ_next 10 (1/1000000) genC8 respC8 (fun _ => 0) 999
    ⟨2, 0, 1, 5, SStatus.optimal, [(1, 0, cutA)], [(1, 5, 1)]⟩ _ hg1 hb1
  have e2 := loopRun_succ_next 10 (1/1000000) genC8 respC8 (fun _ => 0) 998
    ⟨3, 0, 2, 5, SStatus.optimal, [(1, 0, cutA), (2, 0, cutA)],
      [(1, 5, 1), (2, 5, 2)]⟩ _ hg2 hb2
  have e3 := loopRun_succ_next 10 (1/1000000) genC8 respC8 (fun _ => 0) 997
    ⟨4, 0, 3, 5, SStatus.optimal, [(1, 0, cutA), (2, 0, cutA), (3, 0, cutA)],
      [(1, 5, 1), (2, 5, 2), (3, 5, 3)]⟩ _ hg3 hb3
  rw [show (1001:ℕ) = 1000 + 1 from rfl, e0,
    show (1000:ℕ) = 999 + 1 from rfl, e1,
    show (999:ℕ) = 998 + 1 from rfl, e2,
    show (998:ℕ) = 997 + 1 from rfl, e3]
  constructor
  · have hpre := loopRun_records_prefix 10 (1/1000000) genC8 respC8 (fun _ => 0) 997
      ⟨5, 0, 4, 5, SStatus.optimal,
        [(1, 0, cutA), (2, 0, cutA), (3, 0, cutA), (4, 0, cutA)],
        [(1, 5, 1), (2, 5, 2), (3, 5, 3), (4, 5, 4)]⟩
    simpa using hpre
  · have hcount := loopRun_count_pos 10 (1/1000000) genC8 respC8 (fun _ => 0) 996
      ⟨5, 0, 4, 5, SStatus.optimal,
        [(1, 0, cutA), (2, 0, cutA), (3, 0, cutA), (4, 0, cutA)],
        [(1, 5, 1), (2, 5, 2), (3, 5, 3), (4, 5, 4)]⟩ hg4
    rw [show (997:ℕ) = 996 + 1 from rfl]
    dsimp only
    omega




/-! ## Rational literal helpers -/

theorem mkDen_eq (n : ℤ) (d : ℕ) (h1 : d ≠ 0) (h2 : n.natAbs.Coprime d) :
    (Rat.mk' n d h1 h2 : ℚ) = (n : ℚ) / (d : ℚ) := by
  rw [Rat.mk'_eq_divInt, Rat.divInt_eq_div]
  norm_cast

theorem fracPart_of_unit {q : ℚ} (h0 : 0 ≤ q) (h1 : q < 1) : fracPart q = q := by
  rw [fracPart, Int.floor_eq_zero_iff.mpr ⟨h0, h1⟩]
  simp

theorem filterMap_congr' {α β : Type} (l : List α) (f g : α → Option β)
    (h : ∀ a ∈ l, f a = g a) : l.filterMap f = l.filterMap g := by
  induction l with
  | nil => rfl
  | cons a l ih =>
      simp only [List.filterMap_cons, h a (by simp)]
      rw [ih (fun b hb => h b (by simp [hb]))]

/-! ## Claim C2 -/

theorem gfc_terms_eq (ε : ℚ) (row : ℕ → ℚ) (nb : List ℕ) :
    (nb.filterMap fun j =>
        if ε < |fracPart (limitDen (row j) 1000000)| then
          some (j, fracPart (limitDen (row j) 1000000)) else none) =
      (nb.filter fun j => decide (ε < fracPart (limitDen (row j) 1000000))).map
        (fun j => (j, fracPart (limitDen (row j) 1000000))) := by
  induction nb with
  | nil => rfl
  | cons a l ih =>
      have habs : |fracPart (limitDen (row a) 1000000)| =
          fracPart (limitDen (row a) 1000000) :=
        abs_of_nonneg (fracPart_nonneg _)
      by_cases h : ε < fracPart (limitDen (row a) 1000000)
      · simp only [List.filterMap_cons, List.filter_cons, habs, if_pos h,
          decide_eq_true h, List.map_cons, ih]
        simp
      · simp only [List.filterMap_cons, List.filter_cons, habs, if_neg h, ih]
        rw [decide_eq_false h]
        simp

/-- **C2 (amended).** For a basic row, the GFC generator emits the cut
`Σ f_j x_j ≥ f_i` (sense `'G'`, violation `f_i`) over exactly the nonbasic
variables whose reconstructed coefficient fractional part exceeds the
tolerance, provided the row is a candidate (`ε < f_i < 1 - ε`) **and** at
least one coefficient survives that filter; a candidate row all of whose
coefficients have `f_j ≤ ε` produces no cut, and a non-candidate row
produces no cut. -/
theorem C2_gfc_emits_fractional_cut (ε v : ℚ) (row : ℕ → ℚ) (nb : List ℕ) :
    (¬ (ε < fracPart (limitDen v 1000000) ∧
        ε < 1 - fracPart (limitDen v 1000000)) →
      gfcRow ε v row nb = none) ∧
    ((ε < fracPart (limitDen v 1000000) ∧
        ε < 1 - fracPart (limitDen v 1000000)) →
      ((nb.filter fun j => decide (ε < fracPart (limitDen (row j) 1000000))) = [] →
        gfcRow ε v row nb = none) ∧
      ((nb.filter fun j => decide (ε < fracPart (limitDen (row j) 1000000))) ≠ [] →
        gfcRow ε v row nb = some
          ⟨nb.filter fun j => decide (ε < fracPart (limitDen (row j) 1000000)),
            (nb.filter fun j =>
              decide (ε < fracPart (limitDen (row j) 1000000))).map
              (fun j => fracPart (limitDen (row j) 1000000)),
            fracPart (limitDen v 1000000), CSense.G,
            fracPart (limitDen v 1000000)⟩)) := by
  constructor
  · intro hnc
    unfold gfcRow
    rw [if_neg hnc]
  · intro hc
    constructor
    · intro hempty
      unfold gfcRow
      rw [if_pos hc, gfc_terms_eq, hempty]
      simp
    · intro hne
      unfold gfcRow
      rw [if_pos hc, gfc_terms_eq]
      rw [if_neg (by simpa using hne)]
      simp only [List.map_map]
      rw [show (Prod.fst ∘ fun j : ℕ => (j, fracPart (limitDen (row j) 1000000)))
            = (fun j : ℕ => j) from rfl,
        show (Prod.snd ∘ fun j : ℕ => (j, fracPart (limitDen (row j) 1000000)))
            = (fun j : ℕ => fracPart (limitDen (row j) 1000000)) from rfl]
      simp

/-- **C2 witness.** A candidate row (`f_i = 1/2`) with one fractional
coefficient (`f_j = 1/2`) yields exactly the cut `(1/2)·x_0 ≥ 1/2`. -/
theorem C2_witness :
    gfcRow (1/1000000) (Rat.mk' 1 2) (fun _ => Rat.mk' 1 2) [0] = some
      ⟨[0], [fracPart (limitDen (Rat.mk' 1 2) 1000000)],
        fracPart (limitDen (Rat.mk' 1 2) 1000000), CSense.G,
        fracPart (limitDen (Rat.mk' 1 2) 1000000)⟩ := by
  have hv : limitDen (Rat.mk' 1 2) 1000000 = Rat.mk' 1 2 :=
    limitDen_of_den_le (by rw [show (Rat.mk' 1 2).den = 2 from rfl]; norm_num)
  have heq : (Rat.mk' 1 2 : ℚ) = 1/2 := by rw [mkDen_eq]; norm_num
  have hf : fracPart (limitDen (Rat.mk' 1 2) 1000000) = 1/2 := by
    rw [hv, fracPart_of_unit (by rw [heq]; norm_num) (by rw [heq]; norm_num), heq]
  have hdec : decide ((1:ℚ)/1000000 <
      fracPart (limitDen (Rat.mk' 1 2) 1000000)) = true :=
    decide_eq_true (by rw [hf]; norm_num)
  have hfilter : List.filter (fun j => decide ((1:ℚ)/1000000 <
      fracPart (limitDen (Rat.mk' 1 2) 1000000))) [0] = [0] := by
    rw [show (fun j : ℕ => decide ((1:ℚ)/1000000 <
        fracPart (limitDen (Rat.mk' 1 2) 1000000))) = (fun j : ℕ => true)
      from funext (fun j => hdec)]
    simp
  have h := (C2_gfc_emits_fractional_cut (1/1000000) (Rat.mk' 1 2)
    (fun _ => Rat.mk' 1 2) [0]).2 (by rw [hf]; constructor <;> norm_num)
  have h2 := h.2 (by rw [hfilter]; simp)
  rw [h2, hfilter]
  simp

/-- **C2 counterexample.** A candidate row (`f_i = 1/2` strictly inside the
tolerance window) all of whose nonbasic coefficients are integral
(`f_j = 0 ≤ tolerance`) produces **no** cut at all, where the claim demands
that every candidate row emit the cut `Σ f_j x_j ≥ f_i`. -/
theorem C2_candidate_row_yields_no_cut :
    ((1:ℚ)/1000000 < fracPart (limitDen (Rat.mk' 1 2) 1000000) ∧
      (1:ℚ)/1000000 < 1 - fracPart (limitDen (Rat.mk' 1 2) 1000000)) ∧
    gfcRow (1/1000000) (Rat.mk' 1 2) (fun _ => Rat.mk' 2 1) [0] = none := by
  have hv : limitDen (Rat.mk' 1 2) 1000000 = Rat.mk' 1 2 :=
    limitDen_of_den_le (by rw [show (Rat.mk' 1 2).den = 2 from rfl]; norm_num)
  have heq : (Rat.mk' 1 2 : ℚ) = 1/2 := by rw [mkDen_eq]; norm_num
  have hf : fracPart (limitDen (Rat.mk' 1 2) 1000000) = 1/2 := by
    rw [hv, fracPart_of_unit (by rw [heq]; norm_num) (by rw [heq]; norm_num), heq]
  have hr : limitDen (Rat.mk' 2 1) 1000000 = Rat.mk' 2 1 :=
    limitDen_of_den_le (by rw [show (Rat.mk' 2 1).den = 1 from rfl]; norm_num)
  have heq2 : (Rat.mk' 2 1 : ℚ) = ((2:ℤ):ℚ) := by rw [mkDen_eq]; norm_num
  have hf2 : fracPart (limitDen (Rat.mk' 2 1) 1000000) = 0 := by
    rw [hr, heq2, fracPart_intCast]
  refine ⟨⟨by rw [hf]; norm_num, by rw [hf]; norm_num⟩, ?_⟩
  have hdec : decide ((1:ℚ)/1000000 <
      fracPart (limitDen (Rat.mk' 2 1) 1000000)) = false :=
    decide_eq_false (by rw [hf2]; norm_num)
  have hfilter : List.filter (fun j => decide ((1:ℚ)/1000000 <
      fracPart (limitDen (Rat.mk' 2 1) 1000000))) [0] = [] := by
    rw [show (fun j : ℕ => decide ((1:ℚ)/1000000 <
        fracPart (limitDen (Rat.mk' 2 1) 1000000))) = (fun j : ℕ => false)
      from funext (fun j => hdec)]
    simp
  have h := (C2_gfc_emits_fractional_cut (1/1000000) (Rat.mk' 1 2)
    (fun _ => Rat.mk' 2 1) [0]).2 (by rw [hf]; constructor <;> norm_num)
  exact h.1 hfilter



/-! ## Claim C3 -/

theorem gmiCoeffQ_eq (ε fi a : ℚ) (isInt : Bool) (h : ε < 1 - fi) :
    gmiCoeffQ ε fi a isInt = some (gmiCoeffCode ε fi a isInt) := by
  cases isInt with
  | false =>
      simp only [gmiCoeffQ, gmiCoeffCode, Bool.false_eq_true, if_false]
      by_cases h0 : 0 ≤ a
      · rw [if_pos h0, if_pos h0]
      · rw [if_neg h0, if_neg h0, if_pos h]
  | true =>
      simp only [gmiCoeffQ, gmiCoeffCode, if_true]
      by_cases h0 : fracPart a ≤ fi + ε
      · rw [if_pos h0, if_pos h0]
      · rw [if_neg h0, if_neg h0, if_pos h]

theorem filterMap_if_eq {α β : Type} (l : List α) (P : α → Prop) [DecidablePred P]
    (g : α → β) :
    (l.filterMap fun a => if P a then some (g a) else none) =
      (l.filter fun a => decide (P a)).map g := by
  induction l with
  | nil => rfl
  | cons a l ih =>
      by_cases h : P a
      · simp only [List.filterMap_cons, List.filter_cons, if_pos h, decide_eq_true h,
          List.map_cons, ih]
        simp
      · simp only [List.filterMap_cons, List.filter_cons, if_neg h, ih]
        rw [decide_eq_false h]
        simp

theorem gmi_terms_eq (ε fi : ℚ) (es : List GEntry) (h : ε < 1 - fi) :
    (es.filterMap fun e =>
        if |e.a| < ε then none
        else match gmiCoeffQ ε fi (limitDen e.a 100000) e.isInt with
          | some cf => if ε < |cf| then some (e.idx, cf) else none
          | none => none) =
      (es.filter fun e => decide (¬ |e.a| < ε ∧
          ε < |gmiCoeffCode ε fi (limitDen e.a 100000) e.isInt|)).map
        (fun e => (e.idx, gmiCoeffCode ε fi (limitDen e.a 100000) e.isInt)) := by
  rw [filterMap_congr' es _ (fun e =>
    if ¬ |e.a| < ε ∧ ε < |gmiCoeffCode ε fi (limitDen e.a 100000) e.isInt| then
      some (e.idx, gmiCoeffCode ε fi (limitDen e.a 100000) e.isInt) else none) ?_]
  · exact filterMap_if_eq es _ _
  · intro e _
    dsimp only
    rw [gmiCoeffQ_eq ε fi (limitDen e.a 100000) e.isInt h]
    by_cases h1 : |e.a| < ε
    · rw [if_pos h1, if_neg (fun hh => hh.1 h1)]
    · rw [if_neg h1]
      show (if ε < |gmiCoeffCode ε fi (limitDen e.a 100000) e.isInt| then
          some (e.idx, gmiCoeffCode ε fi (limitDen e.a 100000) e.isInt) else none) = _
      by_cases h2 : ε < |gmiCoeffCode ε fi (limitDen e.a 100000) e.isInt|
      · rw [if_pos h2, if_pos ⟨h1, h2⟩]
      · rw [if_neg h2, if_neg (fun hh => h2 hh.2)]

/-- **C3 (amended).** Whenever the GMI generator emits a cut for a row, the
cut has sense `≥` with right-hand side and violation both equal to
`f_i = limit_denominator(v) - floor(v_raw)`, and its term list consists of
exactly the entries surviving the `|a_ij| ≥ ε` and `|coeff| > ε` filters,
each with the coefficient given by the tolerance-relaxed case split
`gmiCoeffCode` (integer columns use `f_j` when `f_j ≤ f_i + ε`, else
`(f_i/(1-f_i))(1-f_j)`; continuous columns use `a_ij` when `a_ij ≥ 0`, else
`(f_i/(1-f_i))(-a_ij)`). -/
theorem C3_gmi_coefficients (ε : ℚ) (bX : Bool) (v : ℚ) (es : List GEntry)
    (c : CutG) (hgen : gmiRow ε bX v es = some c) :
    c.rhs = limitDen v 1000000 - (⌊v⌋ : ℚ) ∧ c.sense = CSense.G ∧
    c.violation = c.rhs ∧
    c.indices = (es.filter fun e => decide (¬ |e.a| < ε ∧
        ε < |gmiCoeffCode ε (limitDen v 1000000 - (⌊v⌋ : ℚ))
          (limitDen e.a 100000) e.isInt|)).map GEntry.idx ∧
    c.coeffs = (es.filter fun e => decide (¬ |e.a| < ε ∧
        ε < |gmiCoeffCode ε (limitDen v 1000000 - (⌊v⌋ : ℚ))
          (limitDen e.a 100000) e.isInt|)).map
      (fun e => gmiCoeffCode ε (limitDen v 1000000 - (⌊v⌋ : ℚ))
        (limitDen e.a 100000) e.isInt) := by
  cases bX with
  | false => exact absurd hgen (by simp [gmiRow])
  | true =>
      simp only [gmiRow, if_true] at hgen
      by_cases hc : ε < limitDen v 1000000 - (⌊v⌋ : ℚ) ∧
          ε < 1 - (limitDen v 1000000 - (⌊v⌋ : ℚ))
      · rw [if_pos hc, gmi_terms_eq ε _ es hc.2] at hgen
        by_cases hemp : (es.filter fun e => decide (¬ |e.a| < ε ∧
            ε < |gmiCoeffCode ε (limitDen v 1000000 - (⌊v⌋ : ℚ))
              (limitDen e.a 100000) e.isInt|)) = []
        · rw [hemp] at hgen
          simp at hgen
        · rw [if_neg (by simpa using hemp)] at hgen
          injection hgen with hcut
          subst hcut
          refine ⟨rfl, rfl, rfl, ?_, ?_⟩
          · simp only [List.map_map]
            rfl
          · simp only [List.map_map]
            rfl
      · rw [if_neg hc] at hgen
        cases hgen



theorem gmiRow_emits (ε : ℚ) (v : ℚ) (es : List GEntry)
    (hc : ε < limitDen v 1000000 - (⌊v⌋ : ℚ) ∧
      ε < 1 - (limitDen v 1000000 - (⌊v⌋ : ℚ)))
    (hne : (es.filter fun e => decide (¬ |e.a| < ε ∧
      ε < |gmiCoeffCode ε (limitDen v 1000000 - (⌊v⌋ : ℚ))
        (limitDen e.a 100000) e.isInt|)) ≠ []) :
    gmiRow ε true v es = some
      ⟨(es.filter fun e => decide (¬ |e.a| < ε ∧
          ε < |gmiCoeffCode ε (limitDen v 1000000 - (⌊v⌋ : ℚ))
            (limitDen e.a 100000) e.isInt|)).map GEntry.idx,
        (es.filter fun e => decide (¬ |e.a| < ε ∧
          ε < |gmiCoeffCode ε (limitDen v 1000000 - (⌊v⌋ : ℚ))
            (limitDen e.a 100000) e.isInt|)).map
          (fun e => gmiCoeffCode ε (limitDen v 1000000 - (⌊v⌋ : ℚ))
            (limitDen e.a 100000) e.isInt),
        limitDen v 1000000 - (⌊v⌋ : ℚ), CSense.G,
        limitDen v 1000000 - (⌊v⌋ : ℚ)⟩ := by
  simp only [gmiRow, if_true]
  rw [if_pos hc, gmi_terms_eq ε _ es hc.2, if_neg (by simpa using hne)]
  simp only [List.map_map]
  rw [show (Prod.fst ∘ fun e : GEntry => (e.idx, gmiCoeffCode ε
        (limitDen v 1000000 - (⌊v⌋ : ℚ)) (limitDen e.a 100000) e.isInt))
      = GEntry.idx from rfl,
    show (Prod.snd ∘ fun e : GEntry => (e.idx, gmiCoeffCode ε
        (limitDen v 1000000 - (⌊v⌋ : ℚ)) (limitDen e.a 100000) e.isInt))
      = (fun e : GEntry => gmiCoeffCode ε (limitDen v 1000000 - (⌊v⌋ : ℚ))
        (limitDen e.a 100000) e.isInt) from rfl]

theorem exampleRow_fi :
    limitDen (Rat.mk' 333333 1000000) 1000000 -
      ((⌊(Rat.mk' 333333 1000000 : ℚ)⌋ : ℤ) : ℚ) = 333333/1000000 := by
  have hveq : (Rat.mk' 333333 1000000 : ℚ) = 333333/1000000 := by
    rw [mkDen_eq]; norm_num
  have hlv : limitDen (Rat.mk' 333333 1000000) 1000000 = Rat.mk' 333333 1000000 :=
    limitDen_of_den_le (by rw [show (Rat.mk' 333333 1000000).den = 1000000 from rfl])
  have hfloor : ⌊(Rat.mk' 333333 1000000 : ℚ)⌋ = 0 :=
    Int.floor_eq_zero_iff.mpr (by rw [hveq]; constructor <;> norm_num)
  rw [hlv, hfloor, hveq]
  norm_num

theorem exampleRow_coeff :
    gmiCoeffCode (1/1000000) (333333/1000000) (limitDen (Rat.mk' 1 3) 100000) true =
      Rat.mk' 1 3 := by
  have ha3 : (Rat.mk' 1 3 : ℚ) = 1/3 := by rw [mkDen_eq]; norm_num
  have hla : limitDen (Rat.mk' 1 3) 100000 = Rat.mk' 1 3 :=
    limitDen_of_den_le (by rw [show (Rat.mk' 1 3).den = 3 from rfl]; norm_num)
  have hfrac3 : fracPart (Rat.mk' 1 3) = Rat.mk' 1 3 :=
    fracPart_of_unit (by rw [ha3]; norm_num) (by rw [ha3]; norm_num)
  unfold gmiCoeffCode
  rw [if_pos rfl, hla, hfrac3, if_pos (by rw [ha3]; norm_num)]

theorem gmiRow_example_eval :
    gmiRow (1/1000000) true (Rat.mk' 333333 1000000) [⟨0, Rat.mk' 1 3, true⟩] =
      some ⟨[0], [Rat.mk' 1 3], 333333/1000000, CSense.G, 333333/1000000⟩ := by
  have ha3 : (Rat.mk' 1 3 : ℚ) = 1/3 := by rw [mkDen_eq]; norm_num
  have hcondE : decide (¬ |(Rat.mk' 1 3 : ℚ)| < (1:ℚ)/1000000 ∧
      (1:ℚ)/1000000 < |gmiCoeffCode (1/1000000) (333333/1000000)
        (limitDen (Rat.mk' 1 3) 100000) true|) = true := by
    refine decide_eq_true ⟨?_, ?_⟩
    · rw [ha3, abs_of_nonneg (by norm_num)]; norm_num
    · rw [exampleRow_coeff, ha3, abs_of_nonneg (by norm_num)]; norm_num
  have h := gmiRow_emits (1/1000000) (Rat.mk' 333333 1000000)
    [⟨0, Rat.mk' 1 3, true⟩]
    (by rw [exampleRow_fi]; constructor <;> norm_num) ?_
  · rw [h]
    rw [exampleRow_fi]
    simp only [List.filter_cons, List.filter_nil]
    rw [show (decide (¬ |(GEntry.mk 0 (Rat.mk' 1 3) true).a| < (1:ℚ)/1000000 ∧
        (1:ℚ)/1000000 < |gmiCoeffCode (1/1000000) (333333/1000000)
          (limitDen (GEntry.mk 0 (Rat.mk' 1 3) true).a 100000)
          (GEntry.mk 0 (Rat.mk' 1 3) true).isInt|)) = true from hcondE]
    simp only [if_true, List.map_cons, List.map_nil]
    rw [exampleRow_coeff]
  · rw [exampleRow_fi]
    simp only [List.filter_cons, List.filter_nil]
    rw [show (decide (¬ |(GEntry.mk 0 (Rat.mk' 1 3) true).a| < (1:ℚ)/1000000 ∧
        (1:ℚ)/1000000 < |gmiCoeffCode (1/1000000) (333333/1000000)
          (limitDen (GEntry.mk 0 (Rat.mk' 1 3) true).a 100000)
          (GEntry.mk 0 (Rat.mk' 1 3) true).isInt|)) = true from hcondE]
    simp

/-- **C3 counterexample.** On the row with basic value `333333/1000000` and
the single integer nonbasic coefficient `1/3`, the GMI generator emits the
coefficient `f_j = 1/3` (because `f_j ≤ f_i + tolerance` holds), whereas
the specification's strict case split demands the second branch
`(f_i/(1-f_i))·(1-f_j)`, whose value differs from `1/3`: the claimed strict
split `f_j ≤ f_i` is not what the code computes. -/
theorem C3_tolerance_shifts_the_split :
    gmiRow (1/1000000) true (Rat.mk' 333333 1000000) [⟨0, Rat.mk' 1 3, true⟩] =
      some ⟨[0], [Rat.mk' 1 3], 333333/1000000, CSense.G, 333333/1000000⟩ ∧
    gmiCoeffSpec (333333/1000000) (Rat.mk' 1 3) true ≠ (Rat.mk' 1 3 : ℚ) := by
  have ha3 : (Rat.mk' 1 3 : ℚ) = 1/3 := by rw [mkDen_eq]; norm_num
  have hfrac3 : fracPart (Rat.mk' 1 3) = Rat.mk' 1 3 :=
    fracPart_of_unit (by rw [ha3]; norm_num) (by rw [ha3]; norm_num)
  refine ⟨gmiRow_example_eval, ?_⟩
  unfold gmiCoeffSpec
  rw [if_pos rfl, hfrac3, if_neg (by rw [ha3]; norm_num), ha3]
  norm_num


/-- **C3 witness.** The amended coefficient characterization instantiated
at the example row. -/
theorem C3_witness :
    (⟨[0], [Rat.mk' 1 3], 333333/1000000, CSense.G,
        333333/1000000⟩ : CutG).rhs =
      limitDen (Rat.mk' 333333 1000000) 1000000 -
        ((⌊(Rat.mk' 333333 1000000 : ℚ)⌋ : ℤ) : ℚ) ∧
    (⟨[0], [Rat.mk' 1 3], 333333/1000000, CSense.G,
        333333/1000000⟩ : CutG).sense = CSense.G ∧
    (⟨[0], [Rat.mk' 1 3], 333333/1000000, CSense.G,
        333333/1000000⟩ : CutG).violation =
      (⟨[0], [Rat.mk' 1 3], 333333/1000000, CSense.G,
        333333/1000000⟩ : CutG).rhs ∧
    (⟨[0], [Rat.mk' 1 3], 333333/1000000, CSense.G,
        333333/1000000⟩ : CutG).indices =
      (([⟨0, Rat.mk' 1 3, true⟩] : List GEntry).filter fun e =>
        decide (¬ |e.a| < (1:ℚ)/1000000 ∧
          (1:ℚ)/1000000 < |gmiCoeffCode (1/1000000)
            (limitDen (Rat.mk' 333333 1000000) 1000000 -
              ((⌊(Rat.mk' 333333 1000000 : ℚ)⌋ : ℤ) : ℚ))
            (limitDen e.a 100000) e.isInt|)).map GEntry.idx ∧
    (⟨[0], [Rat.mk' 1 3], 333333/1000000, CSense.G,
        333333/1000000⟩ : CutG).coeffs =
      (([⟨0, Rat.mk' 1 3, true⟩] : List GEntry).filter fun e =>
        decide (¬ |e.a| < (1:ℚ)/1000000 ∧
          (1:ℚ)/1000000 < |gmiCoeffCode (1/1000000)
            (limitDen (Rat.mk' 333333 1000000) 1000000 -
              ((⌊(Rat.mk' 333333 1000000 : ℚ)⌋ : ℤ) : ℚ))
            (limitDen e.a 100000) e.isInt|)).map
        (fun e => gmiCoeffCode (1/1000000)
          (limitDen (Rat.mk' 333333 1000000) 1000000 -
            ((⌊(Rat.mk' 333333 1000000 : ℚ)⌋ : ℤ) : ℚ))
          (limitDen e.a 100000) e.isInt) :=
  C3_gmi_coefficients (1/1000000) true (Rat.mk' 333333 1000000)
    [⟨0, Rat.mk' 1 3, true⟩]
    ⟨[0], [Rat.mk' 1 3], 333333/1000000, CSense.G, 333333/1000000⟩
    gmiRow_example_eval

/-! ## C4: bounded-denominator reconstruction before flooring -/


/-- The rounding-noise value `2097151/2097152 = 1 - 2^(-21) ≈ 0.9999995`: an
exactly representable IEEE double lying within `10^(-6)` of the integer `1`. -/
def noiseVal : ℚ := Rat.mk' 2097151 2097152

theorem noiseVal_eq : noiseVal = 2097151 / 2097152 := by
  rw [noiseVal, Rat.mk'_eq_divInt]; norm_num [Rat.divInt_eq_div]

theorem limitDen_noiseVal : limitDen noiseVal 1000000 = 1 := by
  rw [limitDen, if_neg (by norm_num [show noiseVal.den = 2097152 from rfl])]
  rw [show noiseVal.den = 2097152 from rfl, show noiseVal.num = 2097151 from rfl]
  rw [show limitDenLoop ((1000000:ℕ):ℤ) (2097152+1) (0,1,1,0,2097151,((2097152:ℕ):ℤ))
        = (0,1,1,1,2097151,1) from by decide]
  rw [noiseVal_eq]
  norm_num [limitDenFinish, Int.fdiv]
  rw [abs_of_nonneg (by positivity), abs_of_nonneg (by positivity)]
  norm_num

theorem floor_noiseVal : ⌊(noiseVal : ℚ)⌋ = 0 :=
  Int.floor_eq_zero_iff.mpr (by rw [noiseVal_eq]; constructor <;> norm_num)

theorem gfcRow_skip (ε v : ℚ) (row : ℕ → ℚ) (nb : List ℕ)
    (h : ¬ (ε < fracPart (limitDen v 1000000) ∧
      ε < 1 - fracPart (limitDen v 1000000))) :
    gfcRow ε v row nb = none := by
  simp only [gfcRow]
  rw [if_neg h]

theorem gmiRow_skip (ε : ℚ) (bX : Bool) (v : ℚ) (es : List GEntry)
    (h : ¬ (ε < limitDen v 1000000 - (⌊v⌋ : ℚ) ∧
      ε < 1 - (limitDen v 1000000 - (⌊v⌋ : ℚ)))) :
    gmiRow ε bX v es = none := by
  cases bX with
  | false => rfl
  | true =>
      simp only [gmiRow, if_true]
      rw [if_neg h]

/-- **C4 counterexample.** `initialize_fract_gc` (src/analysis/solver.py)
floors the raw floating-point tableau values with no rational
reconstruction: on a row whose basic value and single coefficient are both
the noise value `1 - 2^(-21)` (within `10^(-6)` of the integer `1`), it
emits a cut carrying the spurious nonzero term `noiseVal`, even though the
bounded-denominator reconstruction of that value is exactly `1`, whose
fractional part is zero.  The `Fraction(...).limit_denominator()` calls in
that function only format the log output. -/
theorem C4_raw_floor_in_initialize_fract_gc :
    initializeFractGcRow noiseVal [noiseVal] =
      some ([(0, noiseVal)], noiseVal) ∧
    noiseVal ≠ 0 ∧ |noiseVal - 1| < 1/1000000 ∧
    fracPart (limitDen noiseVal 1000000) = 0 := by
  have hne : noiseVal ≠ 0 := by rw [noiseVal_eq]; norm_num
  have hfl := floor_noiseVal
  refine ⟨?_, hne, ?_, ?_⟩
  · simp only [initializeFractGcRow]
    rw [if_pos (by rw [hfl]; rw [noiseVal_eq]; norm_num)]
    rw [show (List.range ([noiseVal].length)).zip [noiseVal]
          = [(0, noiseVal)] from rfl]
    simp only [List.filterMap_cons, List.filterMap_nil]
    rw [hfl]
    simp only [Int.cast_zero, sub_zero]
    rw [if_pos hne]
  · rw [noiseVal_eq]
    rw [show (2097151/2097152 : ℚ) - 1 = -(1/2097152) from by norm_num,
      abs_neg, abs_of_nonneg (by norm_num)]
    norm_num
  · rw [limitDen_noiseVal]
    simpa using fracPart_intCast 1

/-- **C4 (amended).** The two generators of `algorithm/gomory.py` do pass
every tableau quantity through `limit_denominator` before extracting a
fractional part, and this suppresses rounding noise: for the value
`noiseVal = 1 - 2^(-21)`, within `10^(-6)` of the integer `1` but unequal
to it, the reconstruction `limit_denominator(1000000)` returns exactly `1`,
and for every nonnegative tolerance both `gfcRow` and `gmiRow` emit no cut
from a basic row with that value (GFC because the reconstructed fractional
part is `0`; GMI, which floors the raw value, because its `f_i` becomes `1`
and fails the significance guard).  The third cited generator,
`initialize_fract_gc`, violates the claim — see the counterexample. -/
theorem C4_bounded_denominator_reconstruction (ε : ℚ) (hε : 0 ≤ ε)
    (row : ℕ → ℚ) (nb : List ℕ) (bX : Bool) (es : List GEntry) :
    (|noiseVal - 1| < 1/1000000 ∧ noiseVal ≠ 1) ∧
    limitDen noiseVal 1000000 = 1 ∧
    gfcRow ε noiseVal row nb = none ∧
    gmiRow ε bX noiseVal es = none := by
  have h1 := limitDen_noiseVal
  have h2 : fracPart (limitDen noiseVal 1000000) = 0 := by
    rw [h1]; simpa using fracPart_intCast 1
  refine ⟨⟨?_, ?_⟩, h1, ?_, ?_⟩
  · rw [noiseVal_eq]
    rw [show (2097151/2097152 : ℚ) - 1 = -(1/2097152) from by norm_num,
      abs_neg, abs_of_nonneg (by norm_num)]
    norm_num
  · rw [noiseVal_eq]; norm_num
  · exact gfcRow_skip _ _ _ _ (by
      rw [h2]
      intro hc
      exact absurd hc.1 (not_lt.mpr hε))
  · apply gmiRow_skip
    intro hc
    rw [h1, floor_noiseVal] at hc
    have h3 : ε < 0 := by
      have h4 := hc.2
      norm_num at h4
      exact h4
    exact absurd h3 (not_lt.mpr hε)

/-- **C4 witness.** The amended theorem instantiated at tolerance
`10^(-6)`, an empty nonbasic list and an empty entry list. -/
theorem C4_witness :
    (0:ℚ) ≤ 1/1000000 ∧
    ((|noiseVal - 1| < 1/1000000 ∧ noiseVal ≠ 1) ∧
    limitDen noiseVal 1000000 = 1 ∧
    gfcRow (1/1000000) noiseVal (fun _ => 0) [] = none ∧
    gmiRow (1/1000000) true noiseVal [] = none) :=
  ⟨by norm_num,
    C4_bounded_denominator_reconstruction (1/1000000) (by norm_num)
      (fun _ => 0) [] true []⟩

/-! ## Claim C1: validity of the generated cuts -/


/-- A sum of integer-valued rationals is an integer. -/
theorem mapSum_int {α : Type} (l : List α) (g : α → ℚ)
    (h : ∀ a ∈ l, ∃ k : ℤ, g a = (k : ℚ)) :
    ∃ K : ℤ, (l.map g).sum = (K : ℚ) := by
  induction l with
  | nil => exact ⟨0, by simp⟩
  | cons a l ih =>
      obtain ⟨k, hk⟩ := h a (by simp)
      obtain ⟨K, hK⟩ := ih (fun b hb => h b (by simp [hb]))
      refine ⟨k + K, ?_⟩
      simp only [List.map_cons, List.sum_cons, hk, hK]
      push_cast
      ring

/-- Dropping list entries whose summand is zero leaves a sum unchanged. -/
theorem filter_map_sum_eq {α : Type} (l : List α) (P : α → Bool) (g : α → ℚ)
    (h : ∀ a ∈ l, P a = false → g a = 0) :
    ((l.filter P).map g).sum = (l.map g).sum := by
  induction l with
  | nil => rfl
  | cons a l ih =>
      have ih' := ih (fun b hb hf => h b (by simp [hb]) hf)
      rcases hPa : P a with _ | _
      · simp only [List.filter_cons, hPa, List.map_cons, List.sum_cons]
        rw [if_neg (by simp), ih', h a (by simp) hPa]
        ring
      · simp only [List.filter_cons, hPa, List.map_cons, List.sum_cons]
        rw [if_pos trivial]
        simp only [List.map_cons, List.sum_cons, ih']

/-- The rounding argument behind every Gomory cut: a quantity that differs
from `f` by an integer, is nonnegative, with `f < 1`, is at least `f`. -/
theorem gomory_round (S f : ℚ) (K : ℤ) (hK : S - f = (K : ℚ))
    (hS : 0 ≤ S) (hf : f < 1) : f ≤ S := by
  have h1 : (-1 : ℚ) < (K : ℚ) := by rw [← hK]; linarith
  have h2 : (-1 : ℤ) < K := by exact_mod_cast h1
  have h4 : (0 : ℚ) ≤ (K : ℚ) := by exact_mod_cast (by omega : (0:ℤ) ≤ K)
  have h5 : 0 ≤ S - f := by rw [hK]; exact h4
  linarith


/-- Validity of the GFC cut: a point `z` that is integral and nonnegative on
the nonbasic columns, has an integral basic variable, and satisfies the
tableau row equation `z_iB + Σ_j row_j · z_j = v`, satisfies every cut
`gfcRow` emits from that row at zero tolerance, provided the tableau data
are exactly representable within the `limit_denominator` bound. -/
theorem gfcRow_valid (v : ℚ) (row : ℕ → ℚ) (nb : List ℕ) (z : ℕ → ℚ) (iB : ℕ)
    (hvden : v.den ≤ 1000000) (hrden : ∀ j ∈ nb, (row j).den ≤ 1000000)
    (hBint : ∃ k : ℤ, z iB = (k : ℚ))
    (hint : ∀ j ∈ nb, ∃ k : ℤ, z j = (k : ℚ))
    (hnn : ∀ j ∈ nb, 0 ≤ z j)
    (heq : z iB + (nb.map fun j => row j * z j).sum = v)
    (c : CutG) (hc : gfcRow 0 v row nb = some c) :
    cutSatisfied c z := by
  unfold gfcRow at hc
  rw [limitDen_of_den_le hvden, gfc_terms_eq] at hc
  by_cases hcond : (0:ℚ) < fracPart v ∧ (0:ℚ) < 1 - fracPart v
  case neg => rw [if_neg hcond] at hc; cases hc
  rw [if_pos hcond] at hc
  by_cases hemp : ((nb.filter fun j =>
      decide ((0:ℚ) < fracPart (limitDen (row j) 1000000))).map
      (fun j => (j, fracPart (limitDen (row j) 1000000)))) = []
  · rw [if_pos hemp] at hc; cases hc
  · rw [if_neg hemp] at hc
    injection hc with hcut
    subst hcut
    show fracPart v ≤ cutLhs _ z
    unfold cutLhs
    simp only [List.map_map]
    rw [List.zip_map' _ _ (nb.filter fun j =>
      decide ((0:ℚ) < fracPart (limitDen (row j) 1000000)))]
    simp only [List.map_map]
    have hS : ((nb.filter fun j =>
        decide ((0:ℚ) < fracPart (limitDen (row j) 1000000))).map
        ((fun p : ℕ × ℚ => p.2 * z p.1) ∘ (fun j => ((Prod.fst ∘ fun j : ℕ =>
          (j, fracPart (limitDen (row j) 1000000))) j,
          (Prod.snd ∘ fun j : ℕ => (j, fracPart (limitDen (row j) 1000000))) j)))).sum
        = (nb.map fun j => fracPart (row j) * z j).sum := by
      rw [show ((fun p : ℕ × ℚ => p.2 * z p.1) ∘ (fun j : ℕ => ((Prod.fst ∘ fun j : ℕ =>
          (j, fracPart (limitDen (row j) 1000000))) j,
          (Prod.snd ∘ fun j : ℕ => (j, fracPart (limitDen (row j) 1000000))) j)))
          = (fun j : ℕ => fracPart (limitDen (row j) 1000000) * z j) from rfl]
      rw [mapSum_congr ((nb.filter fun j =>
          decide ((0:ℚ) < fracPart (limitDen (row j) 1000000))))
        _ (fun j => fracPart (row j) * z j) ?_]
      · exact filter_map_sum_eq nb _ _ (fun j hj hPf => by
          rw [limitDen_of_den_le (hrden j hj)] at hPf
          have h0 : ¬ ((0:ℚ) < fracPart (row j)) := of_decide_eq_false hPf
          rw [le_antisymm (not_lt.mp h0) (fracPart_nonneg (row j))]
          ring)
      · intro j hj
        rw [limitDen_of_den_le (hrden j (List.mem_of_mem_filter hj))]
    rw [hS]
    obtain ⟨kB, hkB⟩ := hBint
    have hsplit : (nb.map fun j => row j * z j).sum
        = (nb.map fun j => (⌊row j⌋ : ℚ) * z j).sum
          + (nb.map fun j => fracPart (row j) * z j).sum := by
      rw [← mapSum_add]
      exact mapSum_congr _ _ _ (fun j hj => by rw [fracPart]; ring)
    obtain ⟨KF, hKF⟩ := mapSum_int nb (fun j => (⌊row j⌋ : ℚ) * z j) (fun j hj => by
      obtain ⟨k, hk⟩ := hint j hj
      refine ⟨⌊row j⌋ * k, ?_⟩
      show (⌊row j⌋ : ℚ) * z j = ((⌊row j⌋ * k : ℤ) : ℚ)
      rw [hk]
      push_cast
      ring)
    apply gomory_round _ _ (⌊v⌋ - kB - KF)
    · have h5 : (kB : ℚ) + ((nb.map fun j => (⌊row j⌋:ℚ) * z j).sum
          + (nb.map fun j => fracPart (row j) * z j).sum) = v := by
        rw [← hsplit, ← hkB]
        exact heq
      rw [hKF] at h5
      rw [fracPart]
      push_cast
      linarith
    · exact mapSum_nonneg _ _ (fun j hj => mul_nonneg (fracPart_nonneg _) (hnn j hj))
    · exact fracPart_lt_one v

/-- Proof bookkeeping for GMI validity: the part of a column's contribution
entering the cut with unit weight (`f_j z_j` for integer columns with
`f_j ≤ f_i`, `a_j z_j` for continuous columns with `a_j ≥ 0`). -/
def gmiSPlus (fi : ℚ) (z : ℕ → ℚ) (e : GEntry) : ℚ :=
  if e.isInt then (if fracPart e.a ≤ fi then fracPart e.a * z e.idx else 0)
  else (if 0 ≤ e.a then e.a * z e.idx else 0)

/-- Proof bookkeeping for GMI validity: the part of a column's contribution
entering the cut with weight `f_i/(1-f_i)` (`(1-f_j) z_j` for integer
columns with `f_j > f_i`, `(-a_j) z_j` for continuous columns with
`a_j < 0`). -/
def gmiSMinus (fi : ℚ) (z : ℕ → ℚ) (e : GEntry) : ℚ :=
  if e.isInt then (if fracPart e.a ≤ fi then 0 else (1 - fracPart e.a) * z e.idx)
  else (if 0 ≤ e.a then 0 else (-e.a) * z e.idx)

/-- Proof bookkeeping for GMI validity: the integer part of a column's
contribution (`⌊a_j⌋ z_j`, or `(⌊a_j⌋+1) z_j` in the wrap-around case). -/
def gmiShift (fi : ℚ) (z : ℕ → ℚ) (e : GEntry) : ℚ :=
  if e.isInt then
    (if fracPart e.a ≤ fi then (⌊e.a⌋ : ℚ) * z e.idx else ((⌊e.a⌋ : ℚ) + 1) * z e.idx)
  else 0

/-- At zero tolerance the code's relaxed GMI case split coincides with the
specification's strict one. -/
theorem gmiCoeffCode_zero (fi a : ℚ) (isInt : Bool) :
    gmiCoeffCode 0 fi a isInt = gmiCoeffSpec fi a isInt := by
  unfold gmiCoeffCode gmiCoeffSpec
  rw [add_zero]

theorem gmi_entry_decomp (fi : ℚ) (z : ℕ → ℚ) (e : GEntry) :
    e.a * z e.idx = gmiShift fi z e + (gmiSPlus fi z e - gmiSMinus fi z e) := by
  unfold gmiShift gmiSPlus gmiSMinus
  rcases he : e.isInt with _ | _
  · simp only [he, Bool.false_eq_true, if_false]
    by_cases h : 0 ≤ e.a
    · rw [if_pos h, if_pos h]; ring
    · rw [if_neg h, if_neg h]; ring
  · simp only [he, if_true]
    by_cases h : fracPart e.a ≤ fi
    · rw [if_pos h, if_pos h, if_pos h, fracPart]; ring
    · rw [if_neg h, if_neg h, if_neg h, fracPart]; ring

theorem gmi_shift_int (fi : ℚ) (z : ℕ → ℚ) (e : GEntry)
    (hz : e.isInt = true → ∃ k : ℤ, z e.idx = (k : ℚ)) :
    ∃ m : ℤ, gmiShift fi z e = (m : ℚ) := by
  unfold gmiShift
  rcases he : e.isInt with _ | _
  · exact ⟨0, by simp [he]⟩
  · simp only [he, if_true]
    obtain ⟨k, hk⟩ := hz he
    by_cases h : fracPart e.a ≤ fi
    · refine ⟨⌊e.a⌋ * k, ?_⟩
      rw [if_pos h, hk]
      push_cast
      ring
    · refine ⟨(⌊e.a⌋ + 1) * k, ?_⟩
      rw [if_neg h, hk]
      push_cast
      ring

theorem gmi_coeff_split (fi : ℚ) (z : ℕ → ℚ) (e : GEntry) :
    gmiCoeffSpec fi e.a e.isInt * z e.idx
      = gmiSPlus fi z e + fi / (1 - fi) * gmiSMinus fi z e := by
  unfold gmiCoeffSpec gmiSPlus gmiSMinus
  rcases he : e.isInt with _ | _
  · simp only [he, Bool.false_eq_true, if_false]
    by_cases h : 0 ≤ e.a
    · rw [if_pos h, if_pos h, if_pos h]; ring
    · rw [if_neg h, if_neg h, if_neg h]; ring
  · simp only [he, if_true]
    by_cases h : fracPart e.a ≤ fi
    · rw [if_pos h, if_pos h, if_pos h]; ring
    · rw [if_neg h, if_neg h, if_neg h]; ring

theorem gmi_splus_nonneg (fi : ℚ) (z : ℕ → ℚ) (e : GEntry) (hz : 0 ≤ z e.idx) :
    0 ≤ gmiSPlus fi z e := by
  unfold gmiSPlus
  rcases he : e.isInt with _ | _
  · simp only [he, Bool.false_eq_true, if_false]
    by_cases h : 0 ≤ e.a
    · rw [if_pos h]; exact mul_nonneg h hz
    · rw [if_neg h]
  · simp only [he, if_true]
    by_cases h : fracPart e.a ≤ fi
    · rw [if_pos h]; exact mul_nonneg (fracPart_nonneg _) hz
    · rw [if_neg h]

theorem gmi_sminus_nonneg (fi : ℚ) (z : ℕ → ℚ) (e : GEntry) (hz : 0 ≤ z e.idx) :
    0 ≤ gmiSMinus fi z e := by
  unfold gmiSMinus
  rcases he : e.isInt with _ | _
  · simp only [he, Bool.false_eq_true, if_false]
    by_cases h : 0 ≤ e.a
    · rw [if_pos h]
    · rw [if_neg h]
      exact mul_nonneg (by linarith [not_le.mp h]) hz
  · simp only [he, if_true]
    by_cases h : fracPart e.a ≤ fi
    · rw [if_pos h]
    · rw [if_neg h]
      exact mul_nonneg (by linarith [fracPart_lt_one e.a]) hz

/-- Validity of the GMI cut: a point `z` that is nonnegative on the nonbasic
columns, integral on the integer columns, with an integral basic variable,
and satisfying the tableau row equation, satisfies every cut `gmiRow` emits
from that row at zero tolerance, provided the tableau data are exactly
representable within the `limit_denominator` bounds. -/
theorem gmiRow_valid (v : ℚ) (es : List GEntry) (z : ℕ → ℚ) (iB : ℕ)
    (hvden : v.den ≤ 1000000)
    (haden : ∀ e ∈ es, e.a.den ≤ 100000)
    (hBint : ∃ k : ℤ, z iB = (k : ℚ))
    (heInt : ∀ e ∈ es, e.isInt = true → ∃ k : ℤ, z e.idx = (k : ℚ))
    (heNN : ∀ e ∈ es, 0 ≤ z e.idx)
    (heq : z iB + (es.map fun e => e.a * z e.idx).sum = v)
    (c : CutG) (hc : gmiRow 0 true v es = some c) :
    cutSatisfied c z := by
  simp only [gmiRow, if_true] at hc
  rw [limitDen_of_den_le hvden] at hc
  by_cases hcond : (0:ℚ) < v - (⌊v⌋:ℚ) ∧ (0:ℚ) < 1 - (v - (⌊v⌋:ℚ))
  case neg => rw [if_neg hcond] at hc; cases hc
  rw [if_pos hcond, gmi_terms_eq 0 (v - (⌊v⌋:ℚ)) es hcond.2] at hc
  by_cases hemp : ((es.filter fun e => decide (¬ |e.a| < 0 ∧
      0 < |gmiCoeffCode 0 (v - (⌊v⌋:ℚ)) (limitDen e.a 100000) e.isInt|)).map
      (fun e => (e.idx, gmiCoeffCode 0 (v - (⌊v⌋:ℚ))
        (limitDen e.a 100000) e.isInt))) = []
  · rw [if_pos hemp] at hc; cases hc
  · rw [if_neg hemp] at hc
    injection hc with hcut
    subst hcut
    show (v - (⌊v⌋:ℚ)) ≤ cutLhs _ z
    unfold cutLhs
    simp only [List.map_map]
    rw [List.zip_map' _ _ (es.filter fun e => decide (¬ |e.a| < 0 ∧
      0 < |gmiCoeffCode 0 (v - (⌊v⌋:ℚ)) (limitDen e.a 100000) e.isInt|))]
    simp only [List.map_map]
    have hfun : ((fun p : ℕ × ℚ => p.2 * z p.1) ∘ fun e : GEntry =>
        ((Prod.fst ∘ fun e : GEntry => (e.idx, gmiCoeffCode 0 (v - (⌊v⌋:ℚ))
          (limitDen e.a 100000) e.isInt)) e,
         (Prod.snd ∘ fun e : GEntry => (e.idx, gmiCoeffCode 0 (v - (⌊v⌋:ℚ))
          (limitDen e.a 100000) e.isInt)) e))
        = (fun e : GEntry => gmiCoeffCode 0 (v - (⌊v⌋:ℚ))
            (limitDen e.a 100000) e.isInt * z e.idx) := rfl
    rw [hfun]
    have hS : ((es.filter fun e => decide (¬ |e.a| < 0 ∧
        0 < |gmiCoeffCode 0 (v - (⌊v⌋:ℚ)) (limitDen e.a 100000) e.isInt|)).map
        (fun e : GEntry => gmiCoeffCode 0 (v - (⌊v⌋:ℚ))
          (limitDen e.a 100000) e.isInt * z e.idx)).sum
        = (es.map fun e => gmiCoeffSpec (v - (⌊v⌋:ℚ)) e.a e.isInt * z e.idx).sum := by
      rw [mapSum_congr _ _ (fun e : GEntry =>
          gmiCoeffSpec (v - (⌊v⌋:ℚ)) e.a e.isInt * z e.idx) ?_]
      · exact filter_map_sum_eq es _ _ (fun e he hPf => by
          have h0 := of_decide_eq_false hPf
          have h1 : ¬ (|e.a| < 0) := not_lt.mpr (abs_nonneg e.a)
          have h2 : ¬ (0 < |gmiCoeffCode 0 (v - (⌊v⌋:ℚ))
              (limitDen e.a 100000) e.isInt|) := fun hp => h0 ⟨h1, hp⟩
          have h3 : gmiCoeffCode 0 (v - (⌊v⌋:ℚ))
              (limitDen e.a 100000) e.isInt = 0 :=
            abs_eq_zero.mp (le_antisymm (not_lt.mp h2) (abs_nonneg _))
          rw [limitDen_of_den_le (haden e he), gmiCoeffCode_zero] at h3
          rw [h3]
          ring)
      · intro e he
        rw [limitDen_of_den_le (haden e (List.mem_of_mem_filter he)),
          gmiCoeffCode_zero]
    rw [hS]
    obtain ⟨kB, hkB⟩ := hBint
    have hsplit : (es.map fun e => e.a * z e.idx).sum
        = (es.map (gmiShift (v - (⌊v⌋:ℚ)) z)).sum
          + ((es.map (gmiSPlus (v - (⌊v⌋:ℚ)) z)).sum
            - (es.map (gmiSMinus (v - (⌊v⌋:ℚ)) z)).sum) := by
      rw [← mapSum_sub, ← mapSum_add]
      exact mapSum_congr _ _ _ (fun e he => gmi_entry_decomp _ z e)
    have hG : (es.map fun e => gmiCoeffSpec (v - (⌊v⌋:ℚ)) e.a e.isInt * z e.idx).sum
        = (es.map (gmiSPlus (v - (⌊v⌋:ℚ)) z)).sum
          + (v - (⌊v⌋:ℚ)) / (1 - (v - (⌊v⌋:ℚ)))
            * (es.map (gmiSMinus (v - (⌊v⌋:ℚ)) z)).sum := by
      rw [← mapSum_mul_left, ← mapSum_add]
      exact mapSum_congr _ _ _ (fun e he => gmi_coeff_split _ z e)
    rw [hG]
    obtain ⟨KS, hKS⟩ := mapSum_int es (gmiShift (v - (⌊v⌋:ℚ)) z)
      (fun e he => gmi_shift_int _ z e (heInt e he))
    have hs : 0 ≤ (es.map (gmiSPlus (v - (⌊v⌋:ℚ)) z)).sum :=
      mapSum_nonneg _ _ (fun e he => gmi_splus_nonneg _ z e (heNN e he))
    have ht : 0 ≤ (es.map (gmiSMinus (v - (⌊v⌋:ℚ)) z)).sum :=
      mapSum_nonneg _ _ (fun e he => gmi_sminus_nonneg _ z e (heNN e he))
    have h6 := heq
    rw [hsplit, hKS, hkB] at h6
    have hcge : 0 ≤ (v - (⌊v⌋:ℚ)) / (1 - (v - (⌊v⌋:ℚ))) :=
      div_nonneg (le_of_lt hcond.1) (le_of_lt hcond.2)
    by_cases hK : 0 ≤ ⌊v⌋ - kB - KS
    · have hKq : (0:ℚ) ≤ ((⌊v⌋ - kB - KS : ℤ) : ℚ) := by exact_mod_cast hK
      push_cast at hKq
      have hmul : 0 ≤ (v - (⌊v⌋:ℚ)) / (1 - (v - (⌊v⌋:ℚ)))
          * (es.map (gmiSMinus (v - (⌊v⌋:ℚ)) z)).sum := mul_nonneg hcge ht
      linarith
    · have hK1 : ⌊v⌋ - kB - KS ≤ -1 := by omega
      have hK1q : ((⌊v⌋ - kB - KS : ℤ) : ℚ) ≤ -1 := by exact_mod_cast hK1
      push_cast at hK1q
      have ht1 : 1 - (v - (⌊v⌋:ℚ)) ≤ (es.map (gmiSMinus (v - (⌊v⌋:ℚ)) z)).sum := by
        linarith
      have hct : (v - (⌊v⌋:ℚ)) / (1 - (v - (⌊v⌋:ℚ))) * (1 - (v - (⌊v⌋:ℚ)))
          ≤ (v - (⌊v⌋:ℚ)) / (1 - (v - (⌊v⌋:ℚ)))
            * (es.map (gmiSMinus (v - (⌊v⌋:ℚ)) z)).sum :=
        mul_le_mul_of_nonneg_left ht1 hcge
      have hcc : (v - (⌊v⌋:ℚ)) / (1 - (v - (⌊v⌋:ℚ))) * (1 - (v - (⌊v⌋:ℚ)))
          = (v - (⌊v⌋:ℚ)) := div_mul_cancel₀ _ (ne_of_gt hcond.2)
      linarith

/-- The point used by the C1 witness: variable `0` at `0`, all others `1`. -/
def zW : ℕ → ℚ := fun i => if i = 0 then 0 else 1

/-- **C1 (amended).** Every cut emitted by the GFC generator or the GMI
generator at zero tolerance is satisfied by every point that is integral
where integrality is claimed, nonnegative on the nonbasic columns, and
satisfies the tableau row the cut was derived from, whenever the tableau
data are exactly representable within the `limit_denominator` bounds: no
integer solution is cut off by these two generators.  The simple
per-variable generator of `analysis/gomory_cut.py` does **not** have this
property — see the counterexample. -/
theorem C1_generated_cuts_hold_at_integer_points
    (v : ℚ) (row : ℕ → ℚ) (nb : List ℕ) (es : List GEntry) (z : ℕ → ℚ) (iB : ℕ)
    (hvden : v.den ≤ 1000000)
    (hrden : ∀ j ∈ nb, (row j).den ≤ 1000000)
    (haden : ∀ e ∈ es, e.a.den ≤ 100000)
    (hBint : ∃ k : ℤ, z iB = (k : ℚ))
    (hint : ∀ j ∈ nb, ∃ k : ℤ, z j = (k : ℚ))
    (hnn : ∀ j ∈ nb, 0 ≤ z j)
    (heInt : ∀ e ∈ es, e.isInt = true → ∃ k : ℤ, z e.idx = (k : ℚ))
    (heNN : ∀ e ∈ es, 0 ≤ z e.idx)
    (heqG : z iB + (nb.map fun j => row j * z j).sum = v)
    (heqM : z iB + (es.map fun e => e.a * z e.idx).sum = v) :
    (∀ c, gfcRow 0 v row nb = some c → cutSatisfied c z) ∧
    (∀ c, gmiRow 0 true v es = some c → cutSatisfied c z) :=
  ⟨fun c hc => gfcRow_valid v row nb z iB hvden hrden hBint hint hnn heqG c hc,
   fun c hc => gmiRow_valid v es z iB hvden haden hBint heInt heNN heqM c hc⟩

/-- **C1 witness.** The amended validity theorem instantiated on the row
`z_0 + (1/2)·z_1 = 1/2` with the integer point `z = (0, 1)`. -/
theorem C1_witness :
    (∀ c, gfcRow 0 (Rat.mk' 1 2) (fun _ => Rat.mk' 1 2) [1] = some c →
      cutSatisfied c zW) ∧
    (∀ c, gmiRow 0 true (Rat.mk' 1 2) [⟨1, Rat.mk' 1 2, true⟩] = some c →
      cutSatisfied c zW) :=
  C1_generated_cuts_hold_at_integer_points (Rat.mk' 1 2) (fun _ => Rat.mk' 1 2)
    [1] [⟨1, Rat.mk' 1 2, true⟩] zW 0
    (by rw [show (Rat.mk' 1 2).den = 2 from rfl]; norm_num)
    (fun j _ => by rw [show (Rat.mk' 1 2).den = 2 from rfl]; norm_num)
    (fun e he => by
      rw [List.mem_singleton] at he
      subst he
      show (Rat.mk' 1 2).den ≤ 100000
      rw [show (Rat.mk' 1 2).den = 2 from rfl]
      norm_num)
    ⟨0, by simp [zW]⟩
    (fun j hj => by
      rw [List.mem_singleton] at hj
      subst hj
      exact ⟨1, by simp [zW]⟩)
    (fun j hj => by
      rw [List.mem_singleton] at hj
      subst hj
      simp [zW])
    (fun e he _ => by
      rw [List.mem_singleton] at he
      subst he
      exact ⟨1, by simp [zW]⟩)
    (fun e he => by
      rw [List.mem_singleton] at he
      subst he
      simp [zW])
    (by simp [zW])
    (by simp [zW])

/-- A fractional LP point of the `p = 2`, `r = 1` UFL instance: both
facilities half-open, the customer split between them. -/
def zLP : ℕ → ℚ := fun i => if i < 4 then 1/2 else 0

/-- An integer-feasible point of the same instance: facility `0` open and
serving the customer. -/
def zInt : ℕ → ℚ := fun i => if i = 0 ∨ i = 2 then 1 else 0

theorem floor_half : ⌊(1/2 : ℚ)⌋ = 0 :=
  Int.floor_eq_zero_iff.mpr (by constructor <;> norm_num)

theorem pyRound_half : pyRound (1/2 : ℚ) = 0 := by
  unfold pyRound
  rw [fracPart_of_unit (by norm_num) (by norm_num)]
  rw [if_neg (lt_irrefl _), if_neg (lt_irrefl _), floor_half]
  norm_num

theorem fractMeasure_half : fractMeasure (1/2 : ℚ) = 1/2 := by
  rw [fractMeasure, pyRound_half, Int.cast_zero, sub_zero]
  exact abs_of_nonneg (by norm_num)

theorem fmf_eval :
    findMostFractional [1/2, 1/2, 1/2, 1/2] (1/1000000) = some (0, 1/2, 1/2) := by
  have hs1 : fmfStep (1/1000000) (0, none) (0, 1/2) = (1/2, some (0, 1/2)) := by
    simp only [fmfStep]
    rw [fractMeasure_half]
    rw [if_pos ⟨by norm_num, by norm_num⟩]
  have hs2 : ∀ i : ℕ, fmfStep (1/1000000) (1/2, some (0, 1/2)) (i, 1/2)
      = (1/2, some (0, 1/2)) := by
    intro i
    simp only [fmfStep]
    rw [fractMeasure_half]
    rw [if_neg (fun hcon => lt_irrefl _ hcon.2)]
  unfold findMostFractional
  rw [show ([1/2, 1/2, 1/2, 1/2] : List ℚ).enum
      = [(0, (1:ℚ)/2), (1, 1/2), (2, 1/2), (3, 1/2)] from rfl]
  simp only [List.foldl_cons, List.foldl_nil]
  rw [hs1, hs2 1, hs2 2, hs2 3]

theorem zLP_feasible : uflFeasible 2 1 zLP := by
  refine ⟨?_, ?_, ?_⟩
  · intro v hv
    interval_cases v
    rw [Finset.sum_range_succ, Finset.sum_range_succ, Finset.sum_range_zero]
    norm_num [zLP]
  · intro u hu v hv
    interval_cases u <;> interval_cases v <;> norm_num [zLP]
  · intro i hi
    have hi4 : i < 4 := by omega
    interval_cases i <;> norm_num [zLP]

theorem zInt_feasible : uflFeasible 2 1 zInt := by
  refine ⟨?_, ?_, ?_⟩
  · intro v hv
    interval_cases v
    rw [Finset.sum_range_succ, Finset.sum_range_succ, Finset.sum_range_zero]
    norm_num [zInt]
  · intro u hu v hv
    interval_cases u <;> interval_cases v <;> norm_num [zInt]
  · intro i hi
    have hi4 : i < 4 := by omega
    interval_cases i <;> norm_num [zInt]

theorem zInt_integral : uflIntegral 2 1 zInt := by
  intro i hi
  have hi4 : i < 4 := by omega
  interval_cases i <;> norm_num [zInt]

/-- **C1 counterexample.** On the `p = 2`, `r = 1` UFL instance, the LP
point with value `1/2` everywhere is feasible and
`_find_most_fractional_variable` picks variable `0` with value `1/2`; the
simple per-variable generator then emits the cut `z_0 ≤ ⌊1/2⌋ = 0`, and the
integer-feasible point opening facility `0` violates it: the cut removes an
integer solution, contradicting the claim for the simple generator. -/
theorem C1_simple_cut_cuts_off_integer_point :
    uflFeasible 2 1 zLP ∧
    findMostFractional [1/2, 1/2, 1/2, 1/2] (1/1000000) = some (0, 1/2, 1/2) ∧
    uflFeasible 2 1 zInt ∧ uflIntegral 2 1 zInt ∧
    ¬ simpleCutSatisfied 4 0 (1/2) zInt := by
  refine ⟨zLP_feasible, fmf_eval, zInt_feasible, zInt_integral, ?_⟩
  intro hsat
  unfold simpleCutSatisfied simpleGomoryCut at hsat
  rw [Finset.sum_range_succ, Finset.sum_range_succ, Finset.sum_range_succ,
    Finset.sum_range_succ, Finset.sum_range_zero, floor_half] at hsat
  norm_num [zInt] at hsat

end AMOD
